import Mathlib

set_option maxRecDepth 4000

/-!
# Verification of the ClaudeForExcelMemory capture / summarization core

Shallow embedding of the pure core of the repository:

* `src/capture-service/src/uiCapture.ts`: `simpleHash`, `contentHash`,
  `cleanText`, `parseConversationFromCapture`, `mergeMessages`, and the
  transcript-updating portion of `captureOnce`;
* `src/excel-addin/src/utils/textRank.ts`: `splitSentences`, `tokenize`,
  `calculateSimilarity`, `buildSimilarityMatrix`, `rankSentences`,
  `summarize`.

JavaScript strings are modelled as Lean `String`s (one `Char` per UTF-16
code unit; identical for the basic-multilingual-plane texts at issue),
JavaScript 32-bit signed integer results as `Int` wrapped by `toInt32`,
and the float ratio / damping constants as exact rationals.
-/

/-- JavaScript `ToInt32`: wrap an integer to the range `[-2^31, 2^31)`.
This is what `x & x` (and every other bitwise operator) applies to its
operands and result. -/
def toInt32 (n : ℤ) : ℤ :=
  (n + 2 ^ 31) % 2 ^ 32 - 2 ^ 31

/-- One iteration of the loop body of `simpleHash` in `uiCapture.ts`:
`hash = ((hash << 5) - hash) + char; hash = hash & hash;`.
`hash << 5` coerces to int32 and wraps (`toInt32 (hash * 32)`); the
subtraction and addition are exact float64 arithmetic on values of
magnitude below `2^37`, hence exact; `hash & hash` wraps back to int32. -/
def jsHashStep (hash : ℤ) (c : ℕ) : ℤ :=
  toInt32 (toInt32 (hash * 32) - hash + c)

/-- The integer value accumulated by `simpleHash` over the characters of
`str` (charCodeAt is modelled by `Char.toNat`). -/
def simpleHashVal (str : String) : ℤ :=
  str.data.foldl (fun h c => jsHashStep h c.toNat) 0

/-- JavaScript `Number.prototype.toString(16)` on a 32-bit integer value:
lower-case hexadecimal digits, with a leading minus sign for negatives. -/
def toHexString (n : ℤ) : String :=
  if n < 0 then "-" ++ String.mk (Nat.toDigits 16 (-n).toNat)
  else String.mk (Nat.toDigits 16 n.toNat)

/-- `simpleHash` from `uiCapture.ts`: the rolling 32-bit hash rendered as a
hexadecimal string. -/
def simpleHash (str : String) : String :=
  toHexString (simpleHashVal str)

/-- JavaScript `String.prototype.toLowerCase`, per character. -/
def jsToLowerCase (s : String) : String :=
  String.mk (s.data.map Char.toLower)

/-- JavaScript `String.prototype.trim`: drop whitespace from both ends. -/
def jsTrim (s : String) : String :=
  String.mk (((s.data.dropWhile Char.isWhitespace).reverse.dropWhile
    Char.isWhitespace).reverse)

/-- JavaScript `s.substring(0, n)`: the first `n` code units of `s`. -/
def substringFirst (n : ℕ) (s : String) : String :=
  String.mk (s.data.take n)

/-- `contentHash` from `uiCapture.ts`:
`simpleHash(text.substring(0, 100).toLowerCase().trim())`. -/
def contentHash (text : String) : String :=
  simpleHash (jsTrim (jsToLowerCase (substringFirst 100 text)))

/-- Message roles: the `'user' | 'assistant'` union of `uiCapture.ts`. -/
inductive Role where
  | user
  | assistant
  deriving DecidableEq, Repr

/-- The `Message` interface of `uiCapture.ts`. -/
structure Message where
  role : Role
  content : String
  deriving DecidableEq, Repr

/-- The body of the `for (const newMsg of newMessages)` loop of
`mergeMessages` in `uiCapture.ts`, processing one incoming message against
the accumulated `result`.  `existingMap.get(hash)` returns the value of the
*last* `set` for that key, i.e. the last member of `existing` with that
content hash, which is `existing.reverse.find?`. -/
def mergeStep (existing : List Message) (result : List Message)
    (newMsg : Message) : List Message :=
  let hash := contentHash newMsg.content
  match existing.reverse.find? (fun m => contentHash m.content == hash) with
  | some existingMsg =>
    if newMsg.content.length > existingMsg.content.length then
      match result.findIdx? (fun m => contentHash m.content == hash) with
      | some idx => result.set idx newMsg
      | none => result
    else result
  | none => result ++ [newMsg]

/-- `mergeMessages` from `uiCapture.ts`. -/
def mergeMessages (existing newMessages : List Message) : List Message :=
  if existing.length = 0 then newMessages
  else newMessages.foldl (mergeStep existing) existing

/-! ## The specification's formulation of the fingerprint hash (claim C8)

The spec describes the rolling hash as `hash = hash*31 + charCode` under
32-bit signed wrap-around.  These definitions follow the spec's words; the
equivalence with the code's shift-based update is proved below. -/

/-- Spec formulation of one hash iteration: `hash*31 + charCode`, wrapped
to a 32-bit signed integer. -/
def specHashStep (hash : ℤ) (c : ℕ) : ℤ :=
  toInt32 (hash * 31 + c)

/-- Spec formulation of the accumulated hash value of a string. -/
def specHashVal (str : String) : ℤ :=
  str.data.foldl (fun h c => specHashStep h c.toNat) 0

theorem toInt32_congr {a b : ℤ} (h : Int.ModEq (2 ^ 32) a b) :
    toInt32 a = toInt32 b := by
  unfold toInt32
  have : (a + 2 ^ 31) % 2 ^ 32 = (b + 2 ^ 31) % 2 ^ 32 := h.add_right _
  omega

theorem toInt32_modEq (a : ℤ) : Int.ModEq (2 ^ 32) (toInt32 a) a := by
  unfold Int.ModEq toInt32
  omega

theorem jsHashStep_eq_specHashStep : jsHashStep = specHashStep := by
  funext h c
  unfold jsHashStep specHashStep
  apply toInt32_congr
  calc toInt32 (h * 32) - h + (c : ℤ)
      ≡ h * 32 - h + (c : ℤ) [ZMOD 2 ^ 32] :=
        Int.ModEq.add_right _ (Int.ModEq.sub_right _ (toInt32_modEq _))
    _ = h * 31 + (c : ℤ) := by ring

theorem simpleHashVal_eq_specHashVal : simpleHashVal = specHashVal := by
  unfold simpleHashVal specHashVal
  rw [jsHashStep_eq_specHashStep]

/-! ## List toolkit

General lemmas about `find?` over a reversed list (the model of the
last-write-wins hash map of `mergeMessages`), `findIdx?`, and `set`. -/

section ListToolkit

variable {α : Type} {p : α → Bool}

theorem findIdx?_eq_some_spec {l : List α} {i : ℕ}
    (h : l.findIdx? p = some i) :
    ∃ a, l[i]? = some a ∧ p a = true ∧
      ∀ j, j < i → ∃ b, l[j]? = some b ∧ p b = false := by
  rw [List.findIdx?_eq_some_iff_findIdx_eq] at h
  obtain ⟨hlt, hidx⟩ := h
  refine ⟨l[i], by simp, ?_, ?_⟩
  · have := @List.findIdx_getElem _ p l (by omega)
    simpa [hidx] using this
  · intro j hj
    have hjl : j < l.length := by omega
    refine ⟨l[j], by simp, ?_⟩
    have := @List.not_of_lt_findIdx _ p l j (by omega)
    simpa using this

theorem findIdx?_eq_some_of_spec {l : List α} {i : ℕ} {a : α}
    (ha : l[i]? = some a) (hp : p a = true)
    (hmin : ∀ j, j < i → ∀ b, l[j]? = some b → p b = false) :
    l.findIdx? p = some i := by
  induction l generalizing i with
  | nil => simp at ha
  | cons x xs ih =>
    cases i with
    | zero =>
      simp only [List.getElem?_cons_zero, Option.some_inj] at ha
      subst ha
      simp [List.findIdx?_cons, hp]
    | succ j =>
      have hx : p x = false := hmin 0 (by omega) x (by simp)
      simp only [List.getElem?_cons_succ] at ha
      have := ih ha (fun k hk b hb => hmin (k + 1) (by omega) b (by simpa using hb))
      simp [List.findIdx?_cons, hx, List.findIdx?_succ, this]

theorem set_getElem?_self {l : List α} {i : ℕ} {a : α}
    (h : l[i]? = some a) : l.set i a = l := by
  apply List.ext_getElem?
  intro n
  rw [List.getElem?_set]
  by_cases hin : i = n
  · subst hin
    have : i < l.length := by
      rcases List.getElem?_eq_some_iff.1 h with ⟨hl, _⟩
      exact hl
    simp [this, h.symm]
  · simp [hin]

theorem find?_reverse_concat {l : List α} {a : α} :
    (l ++ [a]).reverse.find? p = if p a then some a else l.reverse.find? p := by
  rw [List.reverse_append]
  simp [List.find?_cons]
  cases hpa : p a <;> simp [hpa]

theorem find?_reverse_set {l : List α} {i : ℕ} {a b : α}
    (hi : l[i]? = some a) (hpa : p a = false) (hpb : p b = false) :
    (l.set i b).reverse.find? p = l.reverse.find? p := by
  induction l generalizing i with
  | nil => simp at hi
  | cons x xs ih =>
    cases i with
    | zero =>
      simp only [List.getElem?_cons_zero, Option.some_inj] at hi
      subst hi
      simp only [List.set_cons_zero, List.reverse_cons, List.find?_append]
      simp [List.find?_cons, hpa, hpb]
    | succ j =>
      simp only [List.getElem?_cons_succ] at hi
      simp only [List.set_cons_succ, List.reverse_cons, List.find?_append]
      rw [ih hi]

theorem find?_reverse_eq_none_iff {l : List α} :
    l.reverse.find? p = none ↔ ∀ x ∈ l, p x = false := by
  rw [List.find?_eq_none]
  constructor
  · intro h x hx
    have := h x (by simpa using hx)
    simpa using this
  · intro h x hx
    have := h x (by simpa using hx)
    simp [this]

theorem find?_reverse_isSome {l : List α} {x : α} (hx : x ∈ l)
    (hp : p x = true) : ∃ y, l.reverse.find? p = some y ∧ p y = true := by
  cases hf : l.reverse.find? p with
  | none =>
    rw [find?_reverse_eq_none_iff] at hf
    rw [hf x hx] at hp
    cases hp
  | some y => exact ⟨y, rfl, List.find?_some hf⟩

theorem findIdx?_isSome_of_mem {l : List α} {x : α} (hx : x ∈ l)
    (hp : p x = true) : ∃ i, l.findIdx? p = some i := by
  cases hf : l.findIdx? p with
  | none =>
    rw [List.findIdx?_eq_none_iff] at hf
    rw [hf x hx] at hp
    cases hp
  | some i => exact ⟨i, rfl⟩

theorem findIdx?_set_of_false {l : List α} {i : ℕ} {a b : α}
    (hi : l[i]? = some a) (hpa : p a = false) (hpb : p b = false) :
    (l.set i b).findIdx? p = l.findIdx? p := by
  cases hf : l.findIdx? p with
  | none =>
    rw [List.findIdx?_eq_none_iff] at hf ⊢
    intro x hx
    rcases List.mem_or_eq_of_mem_set hx with hxl | rfl
    · exact hf x hxl
    · exact hpb
  | some k =>
    obtain ⟨c, hc, hpc, hmin⟩ := findIdx?_eq_some_spec hf
    have hik : i ≠ k := by
      intro h
      subst h
      rw [hi] at hc
      cases hc
      rw [hpa] at hpc
      cases hpc
    apply findIdx?_eq_some_of_spec (a := c)
    · rw [List.getElem?_set_ne hik]
      exact hc
    · exact hpc
    · intro j hj d hd
      by_cases hij : i = j
      · subst hij
        have : i < l.length := by
          rcases List.getElem?_eq_some_iff.1 hi with ⟨hl, _⟩
          exact hl
        rw [List.getElem?_set_self this] at hd
        cases hd
        exact hpb
      · rw [List.getElem?_set_ne hij] at hd
        obtain ⟨b', hb', hpb'⟩ := hmin j hj
        rw [hb'] at hd
        cases hd
        exact hpb'

theorem findIdx?_set_found {l : List α} {i : ℕ} {b : α}
    (hf : l.findIdx? p = some i) (hpb : p b = true) :
    (l.set i b).findIdx? p = some i := by
  obtain ⟨c, hc, _, hmin⟩ := findIdx?_eq_some_spec hf
  have hil : i < l.length := by
    rcases List.getElem?_eq_some_iff.1 hc with ⟨hl, _⟩
    exact hl
  apply findIdx?_eq_some_of_spec (a := b)
  · exact List.getElem?_set_self hil
  · exact hpb
  · intro j hj d hd
    rw [List.getElem?_set_ne (by omega)] at hd
    obtain ⟨b', hb', hpb'⟩ := hmin j hj
    rw [hb'] at hd
    cases hd
    exact hpb'

theorem find?_reverse_of_unique {l : List α} {i : ℕ} {a : α}
    (hi : l[i]? = some a) (hp : p a = true)
    (huniq : ∀ j b, j ≠ i → l[j]? = some b → p b = false) :
    l.reverse.find? p = some a := by
  induction l generalizing i with
  | nil => simp at hi
  | cons x xs ih =>
    cases i with
    | zero =>
      simp only [List.getElem?_cons_zero, Option.some_inj] at hi
      subst hi
      have hxs : xs.reverse.find? p = none := by
        rw [find?_reverse_eq_none_iff]
        intro y hy
        obtain ⟨k, hk⟩ := List.mem_iff_getElem?.1 hy
        exact huniq (k + 1) y (by omega) (by simpa using hk)
      simp [List.find?_append, hxs, List.find?_cons, hp]
    | succ j =>
      simp only [List.getElem?_cons_succ] at hi
      have hx : p x = false := huniq 0 x (by omega) (by simp)
      have := ih hi (fun k b hk hb =>
        huniq (k + 1) b (by omega) (by simpa using hb))
      simp [List.find?_append, this]

theorem find?_rev_some_pred {l : List α} {a : α}
    (hf : l.reverse.find? p = some a) : p a = true :=
  List.find?_some hf

theorem find?_rev_some_mem {l : List α} {a : α}
    (hf : l.reverse.find? p = some a) : a ∈ l := by
  have := List.mem_of_find?_eq_some hf
  simpa using this

end ListToolkit


/-! ## Branch equations and step lemmas for `mergeMessages` -/

theorem mergeStep_eq_append {e acc : List Message} {s : Message}
    (hf : e.reverse.find? (fun m => contentHash m.content == contentHash s.content)
        = none) :
    mergeStep e acc s = acc ++ [s] := by
  simp only [mergeStep]
  rw [hf]

theorem mergeStep_eq_set {e acc : List Message} {s em : Message} {idx : ℕ}
    (hf : e.reverse.find? (fun m => contentHash m.content == contentHash s.content)
        = some em)
    (hlen : s.content.length > em.content.length)
    (hidx : acc.findIdx? (fun m => contentHash m.content == contentHash s.content)
        = some idx) :
    mergeStep e acc s = acc.set idx s := by
  simp only [mergeStep]
  rw [hf]
  simp only [hlen, if_true]
  rw [hidx]

theorem mergeStep_eq_acc_of_short {e acc : List Message} {s em : Message}
    (hf : e.reverse.find? (fun m => contentHash m.content == contentHash s.content)
        = some em)
    (hlen : ¬ s.content.length > em.content.length) :
    mergeStep e acc s = acc := by
  simp only [mergeStep]
  rw [hf]
  simp [hlen]

theorem mergeStep_eq_acc_of_noidx {e acc : List Message} {s em : Message}
    (hf : e.reverse.find? (fun m => contentHash m.content == contentHash s.content)
        = some em)
    (hlen : s.content.length > em.content.length)
    (hidx : acc.findIdx? (fun m => contentHash m.content == contentHash s.content)
        = none) :
    mergeStep e acc s = acc := by
  simp only [mergeStep]
  rw [hf]
  simp only [hlen, if_true]
  rw [hidx]

theorem mergeStep_length_le (e acc : List Message) (s : Message) :
    acc.length ≤ (mergeStep e acc s).length := by
  cases hf : e.reverse.find? (fun m => contentHash m.content == contentHash s.content) with
  | none =>
    rw [mergeStep_eq_append hf]
    simp
  | some em =>
    by_cases hlen : s.content.length > em.content.length
    · cases hidx : acc.findIdx? (fun m => contentHash m.content == contentHash s.content) with
      | none => rw [mergeStep_eq_acc_of_noidx hf hlen hidx]
      | some idx =>
        rw [mergeStep_eq_set hf hlen hidx]
        simp
    · rw [mergeStep_eq_acc_of_short hf hlen]

theorem mergeStep_getElem?_hashpres {e acc : List Message} {s : Message}
    {j : ℕ} {m : Message} (hj : acc[j]? = some m) :
    ∃ m', (mergeStep e acc s)[j]? = some m' ∧
      contentHash m'.content = contentHash m.content := by
  have hjlen : j < acc.length := by
    rcases List.getElem?_eq_some_iff.1 hj with ⟨hl, _⟩
    exact hl
  cases hf : e.reverse.find? (fun m => contentHash m.content == contentHash s.content) with
  | none =>
    rw [mergeStep_eq_append hf]
    refine ⟨m, ?_, rfl⟩
    rw [List.getElem?_append_left hjlen]
    exact hj
  | some em =>
    by_cases hlen : s.content.length > em.content.length
    · cases hidx : acc.findIdx? (fun m => contentHash m.content == contentHash s.content) with
      | none =>
        rw [mergeStep_eq_acc_of_noidx hf hlen hidx]
        exact ⟨m, hj, rfl⟩
      | some idx =>
        rw [mergeStep_eq_set hf hlen hidx]
        obtain ⟨a, ha, hpa, _⟩ := findIdx?_eq_some_spec hidx
        by_cases hji : idx = j
        · subst hji
          rw [ha] at hj
          cases hj
          refine ⟨s, List.getElem?_set_self hjlen, ?_⟩
          have : contentHash m.content = contentHash s.content := by
            simpa using hpa
          rw [this]
        · refine ⟨m, ?_, rfl⟩
          rw [List.getElem?_set_ne hji]
          exact hj
    · rw [mergeStep_eq_acc_of_short hf hlen]
      exact ⟨m, hj, rfl⟩

theorem mergeStep_lastWith_other {e acc : List Message} {s : Message}
    {h : String} (hne : contentHash s.content ≠ h) :
    (mergeStep e acc s).reverse.find? (fun m => contentHash m.content == h)
      = acc.reverse.find? (fun m => contentHash m.content == h) := by
  cases hf : e.reverse.find? (fun m => contentHash m.content == contentHash s.content) with
  | none =>
    rw [mergeStep_eq_append hf, find?_reverse_concat]
    simp [hne]
  | some em =>
    by_cases hlen : s.content.length > em.content.length
    · cases hidx : acc.findIdx? (fun m => contentHash m.content == contentHash s.content) with
      | none => rw [mergeStep_eq_acc_of_noidx hf hlen hidx]
      | some idx =>
        rw [mergeStep_eq_set hf hlen hidx]
        obtain ⟨a, ha, hpa, _⟩ := findIdx?_eq_some_spec hidx
        have hah : contentHash a.content = contentHash s.content := by
          simpa using hpa
        apply find?_reverse_set ha
        · simp [hah, hne]
        · simp [hne]
    · rw [mergeStep_eq_acc_of_short hf hlen]

theorem mergeStep_findIdx?_other {e acc : List Message} {s : Message}
    {h : String} (hne : contentHash s.content ≠ h) :
    (mergeStep e acc s).findIdx? (fun m => contentHash m.content == h)
      = acc.findIdx? (fun m => contentHash m.content == h) := by
  cases hf : e.reverse.find? (fun m => contentHash m.content == contentHash s.content) with
  | none =>
    rw [mergeStep_eq_append hf, List.findIdx?_append]
    have h1 : ([s].findIdx? (fun m => contentHash m.content == h)) = none := by
      simp [List.findIdx?_cons, hne]
    rw [h1]
    simp
  | some em =>
    by_cases hlen : s.content.length > em.content.length
    · cases hidx : acc.findIdx? (fun m => contentHash m.content == contentHash s.content) with
      | none => rw [mergeStep_eq_acc_of_noidx hf hlen hidx]
      | some idx =>
        rw [mergeStep_eq_set hf hlen hidx]
        obtain ⟨a, ha, hpa, _⟩ := findIdx?_eq_some_spec hidx
        have hah : contentHash a.content = contentHash s.content := by
          simpa using hpa
        apply findIdx?_set_of_false ha
        · simp [hah, hne]
        · simp [hne]
    · rw [mergeStep_eq_acc_of_short hf hlen]

theorem mergeStep_getElem?_other {e acc : List Message} {s : Message}
    {h : String} {j : ℕ} {m : Message} (hne : contentHash s.content ≠ h)
    (hm : contentHash m.content = h) (hj : acc[j]? = some m) :
    (mergeStep e acc s)[j]? = some m := by
  have hjlen : j < acc.length := by
    rcases List.getElem?_eq_some_iff.1 hj with ⟨hl, _⟩
    exact hl
  cases hf : e.reverse.find? (fun m => contentHash m.content == contentHash s.content) with
  | none =>
    rw [mergeStep_eq_append hf, List.getElem?_append_left hjlen]
    exact hj
  | some em =>
    by_cases hlen : s.content.length > em.content.length
    · cases hidx : acc.findIdx? (fun m => contentHash m.content == contentHash s.content) with
      | none =>
        rw [mergeStep_eq_acc_of_noidx hf hlen hidx]
        exact hj
      | some idx =>
        rw [mergeStep_eq_set hf hlen hidx]
        obtain ⟨a, ha, hpa, _⟩ := findIdx?_eq_some_spec hidx
        have hah : contentHash a.content = contentHash s.content := by
          simpa using hpa
        have hij : idx ≠ j := by
          intro hij
          subst hij
          rw [ha] at hj
          cases hj
          rw [hm] at hah
          exact hne hah.symm
        rw [List.getElem?_set_ne hij]
        exact hj
    · rw [mergeStep_eq_acc_of_short hf hlen]
      exact hj

theorem mergeStep_absent {e acc : List Message} {s : Message}
    (he : ∀ x ∈ e, contentHash x.content ≠ contentHash s.content) :
    mergeStep e acc s = acc ++ [s] := by
  apply mergeStep_eq_append
  rw [find?_reverse_eq_none_iff]
  intro x hx
  simp [he x hx]

theorem mergeStep_countP_other {e acc : List Message} {s : Message}
    {h : String} (hne : contentHash s.content ≠ h) :
    (mergeStep e acc s).countP (fun m => contentHash m.content == h)
      = acc.countP (fun m => contentHash m.content == h) := by
  cases hf : e.reverse.find? (fun m => contentHash m.content == contentHash s.content) with
  | none =>
    rw [mergeStep_eq_append hf, List.countP_append]
    simp [List.countP_cons, hne]
  | some em =>
    by_cases hlen : s.content.length > em.content.length
    · cases hidx : acc.findIdx? (fun m => contentHash m.content == contentHash s.content) with
      | none => rw [mergeStep_eq_acc_of_noidx hf hlen hidx]
      | some idx =>
        rw [mergeStep_eq_set hf hlen hidx]
        obtain ⟨a, ha, hpa, _⟩ := findIdx?_eq_some_spec hidx
        have hah : contentHash a.content = contentHash s.content := by
          simpa using hpa
        have hl : idx < acc.length := by
          rcases List.getElem?_eq_some_iff.1 ha with ⟨hl, _⟩
          exact hl
        rw [List.countP_set _ _ _ _ hl]
        have haidx : acc[idx] = a := by
          rcases List.getElem?_eq_some_iff.1 ha with ⟨_, h2⟩
          exact h2
        rw [haidx]
        simp [hah, hne]
    · rw [mergeStep_eq_acc_of_short hf hlen]

/-! ## Fold lemmas for `mergeMessages` -/

theorem foldl_mergeStep_length_le (e : List Message) (L : List Message)
    (acc : List Message) :
    acc.length ≤ (L.foldl (mergeStep e) acc).length := by
  induction L generalizing acc with
  | nil => simp
  | cons x xs ih =>
    calc acc.length ≤ (mergeStep e acc x).length := mergeStep_length_le e acc x
      _ ≤ ((x :: xs).foldl (mergeStep e) acc).length := by
          simp only [List.foldl_cons]
          exact ih (mergeStep e acc x)

theorem foldl_mergeStep_getElem?_hashpres {e : List Message} {L : List Message}
    {acc : List Message} {j : ℕ} {m : Message} (hj : acc[j]? = some m) :
    ∃ m', (L.foldl (mergeStep e) acc)[j]? = some m' ∧
      contentHash m'.content = contentHash m.content := by
  induction L generalizing acc m with
  | nil => exact ⟨m, hj, rfl⟩
  | cons x xs ih =>
    obtain ⟨m', hm', hh'⟩ := mergeStep_getElem?_hashpres (e := e) (s := x) hj
    obtain ⟨m'', hm'', hh''⟩ := ih hm'
    exact ⟨m'', by simpa using hm'', hh''.trans hh'⟩

theorem foldl_mergeStep_lastWith_other {e : List Message} {L : List Message}
    {acc : List Message} {h : String}
    (hL : ∀ x ∈ L, contentHash x.content ≠ h) :
    (L.foldl (mergeStep e) acc).reverse.find? (fun m => contentHash m.content == h)
      = acc.reverse.find? (fun m => contentHash m.content == h) := by
  induction L generalizing acc with
  | nil => simp
  | cons x xs ih =>
    simp only [List.foldl_cons]
    rw [ih (fun y hy => hL y (by simp [hy]))]
    exact mergeStep_lastWith_other (hL x (by simp))

theorem foldl_mergeStep_findIdx?_other {e : List Message} {L : List Message}
    {acc : List Message} {h : String}
    (hL : ∀ x ∈ L, contentHash x.content ≠ h) :
    (L.foldl (mergeStep e) acc).findIdx? (fun m => contentHash m.content == h)
      = acc.findIdx? (fun m => contentHash m.content == h) := by
  induction L generalizing acc with
  | nil => simp
  | cons x xs ih =>
    simp only [List.foldl_cons]
    rw [ih (fun y hy => hL y (by simp [hy]))]
    exact mergeStep_findIdx?_other (hL x (by simp))

theorem foldl_mergeStep_getElem?_other {e : List Message} {L : List Message}
    {acc : List Message} {h : String} {j : ℕ} {m : Message}
    (hL : ∀ x ∈ L, contentHash x.content ≠ h)
    (hm : contentHash m.content = h) (hj : acc[j]? = some m) :
    (L.foldl (mergeStep e) acc)[j]? = some m := by
  induction L generalizing acc with
  | nil => exact hj
  | cons x xs ih =>
    simp only [List.foldl_cons]
    exact ih (fun y hy => hL y (by simp [hy]))
      (mergeStep_getElem?_other (hL x (by simp)) hm hj)

theorem foldl_mergeStep_countP {e : List Message} {L : List Message}
    {acc : List Message} {h : String}
    (he : ∀ x ∈ e, contentHash x.content ≠ h) :
    (L.foldl (mergeStep e) acc).countP (fun m => contentHash m.content == h)
      = acc.countP (fun m => contentHash m.content == h)
        + L.countP (fun m => contentHash m.content == h) := by
  induction L generalizing acc with
  | nil => simp
  | cons x xs ih =>
    simp only [List.foldl_cons, List.countP_cons]
    rw [ih]
    by_cases hx : contentHash x.content = h
    · have habs : mergeStep e acc x = acc ++ [x] := by
        apply mergeStep_absent
        intro y hy
        rw [hx]
        exact he y hy
      rw [habs, List.countP_append]
      simp [List.countP_cons, hx]
      ring
    · rw [mergeStep_countP_other hx]
      simp [hx]

/-! ## Idempotence of `mergeMessages` on duplicate-free snapshots -/

theorem find?_reverse_unique_decomp {α : Type} {p : α → Bool}
    {l₁ l₂ : List α} {a : α}
    (_h1 : ∀ x ∈ l₁, p x = false) (h2 : ∀ x ∈ l₂, p x = false)
    (hp : p a = true) :
    (l₁ ++ a :: l₂).reverse.find? p = some a := by
  have hl2 : l₂.reverse.find? p = none := by
    rw [find?_reverse_eq_none_iff]
    exact h2
  simp only [List.reverse_append, List.reverse_cons, List.find?_append]
  simp [hl2, List.find?_cons, hp]

theorem foldl_fix {α β : Type} {f : α → β → α} {a : α} {S : List β}
    (h : ∀ s ∈ S, f a s = a) : S.foldl f a = a := by
  induction S with
  | nil => rfl
  | cons x xs ih =>
    simp only [List.foldl_cons, h x (by simp)]
    exact ih (fun s hs => h s (by simp [hs]))

set_option maxHeartbeats 1000000 in
theorem merge_fold_fix {T S : List Message}
    (hS : S.Pairwise (fun a b => contentHash a.content ≠ contentHash b.content))
    {s : Message} (hs : s ∈ S) :
    mergeStep (S.foldl (mergeStep T) T) (S.foldl (mergeStep T) T) s
      = S.foldl (mergeStep T) T := by
  obtain ⟨S₁, S₂, rfl⟩ := List.append_of_mem hs
  rw [List.pairwise_append] at hS
  obtain ⟨hP1, hP2, hP12⟩ := hS
  rw [List.pairwise_cons] at hP2
  obtain ⟨hP2s, _⟩ := hP2
  have hS₁ : ∀ y ∈ S₁, contentHash y.content ≠ contentHash s.content :=
    fun y hy => hP12 y hy s (by simp)
  have hS₂ : ∀ y ∈ S₂, contentHash y.content ≠ contentHash s.content :=
    fun y hy => (hP2s y hy).symm
  have hfold : (S₁ ++ s :: S₂).foldl (mergeStep T) T
      = S₂.foldl (mergeStep T) (mergeStep T (S₁.foldl (mergeStep T) T) s) := by
    rw [List.foldl_append, List.foldl_cons]
  set A₁ := S₁.foldl (mergeStep T) T with hA₁
  cases hf : T.reverse.find? (fun m => contentHash m.content == contentHash s.content) with
  | none =>
    have hA₂ : mergeStep T A₁ s = A₁ ++ [s] := mergeStep_eq_append hf
    have hFA₂ : (A₁ ++ [s]).reverse.find?
        (fun m => contentHash m.content == contentHash s.content) = some s := by
      rw [find?_reverse_concat]
      simp
    have hFT' : ((S₁ ++ s :: S₂).foldl (mergeStep T) T).reverse.find?
        (fun m => contentHash m.content == contentHash s.content) = some s := by
      rw [hfold, hA₂]
      rw [foldl_mergeStep_lastWith_other hS₂]
      exact hFA₂
    exact mergeStep_eq_acc_of_short hFT' (by omega)
  | some em =>
    by_cases hlen : s.content.length > em.content.length
    · -- the incoming message replaced the first entry of its hash class
      have hmemT : em ∈ T := find?_rev_some_mem hf
      have hpem := find?_rev_some_pred hf
      have hidxT' : ∃ i, T.findIdx?
          (fun m => contentHash m.content == contentHash s.content) = some i :=
        findIdx?_isSome_of_mem hmemT hpem
      obtain ⟨i, hidxT⟩ := hidxT'
      have hidxA₁ : A₁.findIdx?
          (fun m => contentHash m.content == contentHash s.content) = some i := by
        rw [hA₁, foldl_mergeStep_findIdx?_other hS₁]
        exact hidxT
      have hA₂ : mergeStep T A₁ s = A₁.set i s := mergeStep_eq_set hf hlen hidxA₁
      have hilen : i < A₁.length := by
        obtain ⟨a, ha, _, _⟩ := findIdx?_eq_some_spec hidxA₁
        rcases List.getElem?_eq_some_iff.1 ha with ⟨hl, _⟩
        exact hl
      have hgetA₂ : (A₁.set i s)[i]? = some s := List.getElem?_set_self hilen
      have hidxA₂ : (A₁.set i s).findIdx?
          (fun m => contentHash m.content == contentHash s.content) = some i :=
        findIdx?_set_found hidxA₁ (by simp)
      have hsmem : s ∈ A₁.set i s := List.mem_iff_getElem?.2 ⟨i, hgetA₂⟩
      have hFA₂' : ∃ y, (A₁.set i s).reverse.find?
          (fun m => contentHash m.content == contentHash s.content) = some y ∧
          (contentHash y.content == contentHash s.content) = true :=
        find?_reverse_isSome hsmem (by simp)
      obtain ⟨x, hFA₂, _⟩ := hFA₂'
      have hFT' : ((S₁ ++ s :: S₂).foldl (mergeStep T) T).reverse.find?
          (fun m => contentHash m.content == contentHash s.content) = some x := by
        rw [hfold, hA₂, foldl_mergeStep_lastWith_other hS₂]
        exact hFA₂
      have hIT' : ((S₁ ++ s :: S₂).foldl (mergeStep T) T).findIdx?
          (fun m => contentHash m.content == contentHash s.content) = some i := by
        rw [hfold, hA₂, foldl_mergeStep_findIdx?_other hS₂]
        exact hidxA₂
      have hGT' : ((S₁ ++ s :: S₂).foldl (mergeStep T) T)[i]? = some s := by
        rw [hfold, hA₂]
        exact foldl_mergeStep_getElem?_other hS₂ rfl hgetA₂
      by_cases hlen2 : s.content.length > x.content.length
      · rw [mergeStep_eq_set hFT' hlen2 hIT']
        exact set_getElem?_self hGT'
      · exact mergeStep_eq_acc_of_short hFT' hlen2
    · -- the incoming message did not beat the stored one; nothing changed
      have hA₂ : mergeStep T A₁ s = A₁ := mergeStep_eq_acc_of_short hf hlen
      have hFT' : ((S₁ ++ s :: S₂).foldl (mergeStep T) T).reverse.find?
          (fun m => contentHash m.content == contentHash s.content) = some em := by
        rw [hfold, hA₂, foldl_mergeStep_lastWith_other hS₂, hA₁,
          foldl_mergeStep_lastWith_other hS₁]
        exact hf
      exact mergeStep_eq_acc_of_short hFT' hlen

/-! ## Core replacement lemma: distinct-fingerprint inputs -/

theorem merge_replace_core {T S : List Message} {i : ℕ} {t s : Message}
    (hT : T.Pairwise (fun a b => contentHash a.content ≠ contentHash b.content))
    (hS : S.Pairwise (fun a b => contentHash a.content ≠ contentHash b.content))
    (hti : T[i]? = some t) (hs : s ∈ S)
    (hh : contentHash s.content = contentHash t.content)
    (hlen : t.content.length < s.content.length) :
    (mergeMessages T S)[i]? = some s := by
  have hilen : i < T.length := by
    rcases List.getElem?_eq_some_iff.1 hti with ⟨hl, _⟩
    exact hl
  have hT0 : ¬ T.length = 0 := by omega
  rw [mergeMessages, if_neg hT0]
  obtain ⟨S₁, S₂, rfl⟩ := List.append_of_mem hs
  rw [List.pairwise_append] at hS
  obtain ⟨hP1, hP2, hP12⟩ := hS
  rw [List.pairwise_cons] at hP2
  obtain ⟨hP2s, _⟩ := hP2
  have hS₁ : ∀ y ∈ S₁, contentHash y.content ≠ contentHash s.content :=
    fun y hy => hP12 y hy s (by simp)
  have hS₂ : ∀ y ∈ S₂, contentHash y.content ≠ contentHash s.content :=
    fun y hy => (hP2s y hy).symm
  have hTpair := List.pairwise_iff_getElem.1 hT
  have hgetT : T[i] = t := by
    rcases List.getElem?_eq_some_iff.1 hti with ⟨_, h2⟩
    exact h2
  have hother : ∀ j b, j ≠ i → T[j]? = some b →
      (contentHash b.content == contentHash s.content) = false := by
    intro j b hji hjb
    obtain ⟨hjlen, hgetj⟩ := List.getElem?_eq_some_iff.1 hjb
    have hne : contentHash b.content ≠ contentHash t.content := by
      rcases Nat.lt_or_ge j i with hlt | hge
      · have := hTpair j i hjlen hilen hlt
        rw [hgetj, hgetT] at this
        exact this
      · have hlt : i < j := by omega
        have := hTpair i j hilen hjlen hlt
        rw [hgetj, hgetT] at this
        exact fun hc => this hc.symm
    simp [hh, hne]
  have hpt : (contentHash t.content == contentHash s.content) = true := by
    simp [hh]
  have hfT : T.reverse.find?
      (fun m => contentHash m.content == contentHash s.content) = some t :=
    find?_reverse_of_unique hti hpt hother
  have hidxT : T.findIdx?
      (fun m => contentHash m.content == contentHash s.content) = some i := by
    apply findIdx?_eq_some_of_spec hti hpt
    intro j hj b hb
    exact hother j b (by omega) hb
  have hfold : (S₁ ++ s :: S₂).foldl (mergeStep T) T
      = S₂.foldl (mergeStep T) (mergeStep T (S₁.foldl (mergeStep T) T) s) := by
    rw [List.foldl_append, List.foldl_cons]
  rw [hfold]
  have hidxA₁ : (S₁.foldl (mergeStep T) T).findIdx?
      (fun m => contentHash m.content == contentHash s.content) = some i := by
    rw [foldl_mergeStep_findIdx?_other hS₁]
    exact hidxT
  have hA₂ : mergeStep T (S₁.foldl (mergeStep T) T) s
      = (S₁.foldl (mergeStep T) T).set i s :=
    mergeStep_eq_set hfT (by omega) hidxA₁
  rw [hA₂]
  have hilenA₁ : i < (S₁.foldl (mergeStep T) T).length := by
    have := foldl_mergeStep_length_le T S₁ T
    omega
  exact foldl_mergeStep_getElem?_other hS₂ rfl (List.getElem?_set_self hilenA₁)


/-! ## Claims C1, C2, C3, C9, C10 -/

/-- **C1, counterexample.** Reconciler idempotence fails as stated: with
canonical list `[{user, "abc"}]` and incoming list
`[{user, "abc  "}, {user, "abc "}]` (all three contents share one
fingerprint, since `contentHash` trims), the second merge changes the
result again, because each incoming message is compared against the
last-write-wins map entry of the *old* canonical list while replacement
rewrites the first matching position. -/
theorem c1_counterexample :
    mergeMessages
        (mergeMessages [⟨Role.user, "abc"⟩]
          [⟨Role.user, "abc  "⟩, ⟨Role.user, "abc "⟩])
        [⟨Role.user, "abc  "⟩, ⟨Role.user, "abc "⟩]
      ≠ mergeMessages [⟨Role.user, "abc"⟩]
          [⟨Role.user, "abc  "⟩, ⟨Role.user, "abc "⟩] := by
  decide

/-- **C1, amended.** Reconciler idempotence holds whenever the incoming
snapshot contains no two messages with the same fingerprint: for every
canonical list `T` and every incoming list `S` whose `contentHash`
fingerprints are pairwise distinct,
`mergeMessages (mergeMessages T S) S = mergeMessages T S`. -/
theorem mergeMessages_idem_of_distinct_fingerprints (T S : List Message)
    (hS : S.Pairwise (fun a b => contentHash a.content ≠ contentHash b.content)) :
    mergeMessages (mergeMessages T S) S = mergeMessages T S := by
  by_cases hT : T.length = 0
  · have hTS : mergeMessages T S = S := by
      rw [mergeMessages, if_pos hT]
    rw [hTS]
    by_cases hS0 : S.length = 0
    · rw [mergeMessages, if_pos hS0]
    · rw [mergeMessages, if_neg hS0]
      apply foldl_fix
      intro s hs
      obtain ⟨S₁, S₂, rfl⟩ := List.append_of_mem hs
      rw [List.pairwise_append] at hS
      obtain ⟨hP1, hP2, hP12⟩ := hS
      rw [List.pairwise_cons] at hP2
      obtain ⟨hP2s, _⟩ := hP2
      have hf : (S₁ ++ s :: S₂).reverse.find?
          (fun m => contentHash m.content == contentHash s.content) = some s := by
        apply find?_reverse_unique_decomp
        · intro x hx
          simp [hP12 x hx s (by simp)]
        · intro x hx
          simp [(hP2s x hx).symm]
        · simp
      exact mergeStep_eq_acc_of_short hf (by omega)
  · have hTS : mergeMessages T S = S.foldl (mergeStep T) T := by
      rw [mergeMessages, if_neg hT]
    rw [hTS]
    have hlen : ¬ (S.foldl (mergeStep T) T).length = 0 := by
      have := foldl_mergeStep_length_le T S T
      omega
    rw [mergeMessages, if_neg hlen]
    apply foldl_fix
    intro s hs
    exact merge_fold_fix hS hs

/-- **C1, witness.** The amended idempotence theorem applied to a concrete
canonical list and a concrete duplicate-free snapshot. -/
theorem c1_witness :
    ([⟨Role.user, "what is two plus two"⟩,
      ⟨Role.assistant, "four of course"⟩] : List Message).Pairwise
        (fun a b => contentHash a.content ≠ contentHash b.content) ∧
    mergeMessages
        (mergeMessages [⟨Role.user, "hello world"⟩]
          [⟨Role.user, "what is two plus two"⟩, ⟨Role.assistant, "four of course"⟩])
        [⟨Role.user, "what is two plus two"⟩, ⟨Role.assistant, "four of course"⟩]
      = mergeMessages [⟨Role.user, "hello world"⟩]
          [⟨Role.user, "what is two plus two"⟩, ⟨Role.assistant, "four of course"⟩] :=
  ⟨by decide,
    mergeMessages_idem_of_distinct_fingerprints
      [⟨Role.user, "hello world"⟩]
      [⟨Role.user, "what is two plus two"⟩, ⟨Role.assistant, "four of course"⟩]
      (by decide)⟩

/-- **C2.** Monotonic growth: `mergeMessages T S` is at least as long as
`T`; every position of `T` still holds a message with the same fingerprint
at the same position (existing entries are never dropped or reordered); and
every fingerprint of `T` survives into the merged list. -/
theorem mergeMessages_monotone (T S : List Message) :
    T.length ≤ (mergeMessages T S).length ∧
    (∀ (j : ℕ) (m : Message), T[j]? = some m →
      ∃ m', (mergeMessages T S)[j]? = some m' ∧
        contentHash m'.content = contentHash m.content) ∧
    (∀ m ∈ T, ∃ m' ∈ mergeMessages T S,
      contentHash m'.content = contentHash m.content) := by
  by_cases hT : T.length = 0
  · have hTnil : T = [] := List.length_eq_zero.1 hT
    subst hTnil
    have h0 : mergeMessages [] S = S := by
      rw [mergeMessages]
      simp
    rw [h0]
    refine ⟨by simp, ?_, ?_⟩
    · intro j m hm
      simp at hm
    · intro m hm
      simp at hm
  · have hTS : mergeMessages T S = S.foldl (mergeStep T) T := by
      rw [mergeMessages, if_neg hT]
    rw [hTS]
    refine ⟨foldl_mergeStep_length_le T S T, ?_, ?_⟩
    · intro j m hm
      exact foldl_mergeStep_getElem?_hashpres hm
    · intro m hm
      obtain ⟨j, hj⟩ := List.mem_iff_getElem?.1 hm
      obtain ⟨m', hm', hh⟩ := foldl_mergeStep_getElem?_hashpres (e := T) (L := S) hj
      exact ⟨m', List.mem_iff_getElem?.2 ⟨j, hm'⟩, hh⟩

/-- **C2, witness.** The positional fingerprint-preservation part of the
monotonicity theorem, applied at a concrete transcript and snapshot. -/
theorem c2_witness :
    ∃ m', (mergeMessages [⟨Role.user, "hello there good friend"⟩]
        [⟨Role.user, "hello there good friend and colleague"⟩])[0]? = some m' ∧
      contentHash m'.content
        = contentHash (Message.content ⟨Role.user, "hello there good friend"⟩) :=
  (mergeMessages_monotone [⟨Role.user, "hello there good friend"⟩]
      [⟨Role.user, "hello there good friend and colleague"⟩]).2.1
    0 ⟨Role.user, "hello there good friend"⟩ (by decide)

/-- **C3, counterexample.** Longer-wins in-place replacement fails as
stated when the canonical list contains two entries with the same
fingerprint: with `T = [{user, "abc "}, {user, "abc"}]` and
`S = [{user, "abc  "}]`, the incoming message matches the entry at index 1
(same fingerprint, strictly longer), yet the merged list still holds
`"abc"` at index 1 — the replacement was applied at index 0, the *first*
position with that fingerprint. -/
theorem c3_counterexample :
    contentHash "abc  " = contentHash "abc" ∧
    ("abc" : String).length < ("abc  " : String).length ∧
    ([⟨Role.user, "abc "⟩, ⟨Role.user, "abc"⟩] : List Message)[1]?
      = some ⟨Role.user, "abc"⟩ ∧
    ¬ (mergeMessages [⟨Role.user, "abc "⟩, ⟨Role.user, "abc"⟩]
        [⟨Role.user, "abc  "⟩])[1]? = some ⟨Role.user, "abc  "⟩ := by
  decide

/-- **C3, amended.** Longer-wins in-place replacement, for duplicate-free
inputs: if the fingerprints of `T` are pairwise distinct, those of `S` are
pairwise distinct, `S` contains a message `s` whose fingerprint matches the
entry `t` at index `i` of `T`, and `s.content` is strictly longer, then the
merged list carries `s.content` at index `i` (the entry keeps its
position). -/
theorem mergeMessages_longer_wins {T S : List Message} {i : ℕ}
    {t s : Message}
    (hT : T.Pairwise (fun a b => contentHash a.content ≠ contentHash b.content))
    (hS : S.Pairwise (fun a b => contentHash a.content ≠ contentHash b.content))
    (hti : T[i]? = some t) (hs : s ∈ S)
    (hh : contentHash s.content = contentHash t.content)
    (hlen : t.content.length < s.content.length) :
    ∃ m', (mergeMessages T S)[i]? = some m' ∧ m'.content = s.content :=
  ⟨s, merge_replace_core hT hS hti hs hh hlen, rfl⟩

/-- **C3, witness.** The amended longer-wins theorem at a concrete input:
the fingerprint of `"abc "` matches the canonical entry `"abc"` at index 1
and the longer content lands exactly there. -/
theorem c3_witness :
    ∃ m', (mergeMessages
        [⟨Role.user, "hello there good friend"⟩, ⟨Role.assistant, "abc"⟩]
        [⟨Role.assistant, "abc "⟩])[1]? = some m' ∧
      m'.content = Message.content ⟨Role.assistant, "abc "⟩ :=
  mergeMessages_longer_wins (i := 1)
    (T := [⟨Role.user, "hello there good friend"⟩, ⟨Role.assistant, "abc"⟩])
    (S := [⟨Role.assistant, "abc "⟩])
    (t := ⟨Role.assistant, "abc"⟩) (s := ⟨Role.assistant, "abc "⟩)
    (by decide) (by decide) (by decide) (by decide) (by decide) (by decide)

/-- **C9, counterexample.** The claim that a replacement changes only the
`content` field fails: `result[idx] = newMsg` stores the whole incoming
message, so when `{user, "abc "}` replaces `{assistant, "abc"}` (same
fingerprint, strictly longer content) the stored role flips from
`assistant` to `user`. -/
theorem c9_counterexample :
    contentHash "abc " = contentHash "abc" ∧
    ("abc" : String).length < ("abc " : String).length ∧
    mergeMessages [⟨Role.assistant, "abc"⟩] [⟨Role.user, "abc "⟩]
      = [⟨Role.user, "abc "⟩] ∧
    Role.user ≠ Role.assistant := by
  decide

/-- **C9, amended.** A replacement stores the entire incoming message, so
the entry's role after the merge is the *incoming* message's role; the
stored role is unchanged exactly when the incoming message carries the same
role.  Stated for duplicate-free inputs (where the replaced entry is the
matched one): under the longer-wins conditions and `s.role = t.role`, the
entry at index `i` keeps role `t.role`. -/
theorem mergeMessages_replace_role {T S : List Message} {i : ℕ}
    {t s : Message}
    (hT : T.Pairwise (fun a b => contentHash a.content ≠ contentHash b.content))
    (hS : S.Pairwise (fun a b => contentHash a.content ≠ contentHash b.content))
    (hti : T[i]? = some t) (hs : s ∈ S)
    (hh : contentHash s.content = contentHash t.content)
    (hlen : t.content.length < s.content.length)
    (hrole : s.role = t.role) :
    ∃ m', (mergeMessages T S)[i]? = some m' ∧ m'.role = t.role :=
  ⟨s, merge_replace_core hT hS hti hs hh hlen, hrole⟩

/-- **C9, witness.** Role preservation under replacement at a concrete
input where the incoming message has the same role as the stored entry. -/
theorem c9_witness :
    ∃ m', (mergeMessages
        [⟨Role.user, "hello there good friend"⟩, ⟨Role.assistant, "abc"⟩]
        [⟨Role.assistant, "abc "⟩])[1]? = some m' ∧
      m'.role = Role.assistant :=
  mergeMessages_replace_role (i := 1)
    (T := [⟨Role.user, "hello there good friend"⟩, ⟨Role.assistant, "abc"⟩])
    (S := [⟨Role.assistant, "abc "⟩])
    (t := ⟨Role.assistant, "abc"⟩) (s := ⟨Role.assistant, "abc "⟩)
    (by decide) (by decide) (by decide) (by decide) (by decide) (by decide)
    (by decide)

/-- **C10.** The fingerprint index of `mergeMessages` is built from the
canonical list only and never extended during the merge: if a fingerprint
`h` is absent from `T`, the merged list carries exactly as many entries
with fingerprint `h` as the incoming list does; in particular, when `S`
holds two same-fingerprint messages at positions `j1 < j2` whose
fingerprint is absent from `T`, both are appended and the merged transcript
contains at least two entries with that fingerprint. -/
theorem mergeMessages_duplicate_append {T S : List Message}
    {j1 j2 : ℕ} {s1 s2 : Message}
    (hj : j1 < j2) (h1 : S[j1]? = some s1) (h2 : S[j2]? = some s2)
    (hh : contentHash s1.content = contentHash s2.content)
    (habs : ∀ m ∈ T, contentHash m.content ≠ contentHash s1.content) :
    (mergeMessages T S).countP
        (fun m => contentHash m.content == contentHash s1.content)
      = S.countP (fun m => contentHash m.content == contentHash s1.content) ∧
    2 ≤ (mergeMessages T S).countP
        (fun m => contentHash m.content == contentHash s1.content) := by
  have hcount : (mergeMessages T S).countP
      (fun m => contentHash m.content == contentHash s1.content)
      = S.countP (fun m => contentHash m.content == contentHash s1.content) := by
    by_cases hT : T.length = 0
    · have hTnil : T = [] := List.length_eq_zero.1 hT
      subst hTnil
      rw [mergeMessages]
      simp
    · have hTS : mergeMessages T S = S.foldl (mergeStep T) T := by
        rw [mergeMessages, if_neg hT]
      rw [hTS, foldl_mergeStep_countP habs]
      have hz : T.countP (fun m => contentHash m.content == contentHash s1.content)
          = 0 := by
        rw [List.countP_eq_zero]
        intro m hm
        simp [habs m hm]
      rw [hz]
      omega
  refine ⟨hcount, ?_⟩
  rw [hcount]
  have hsplit := List.take_append_drop j2 S
  have hS2 : 2 ≤ S.countP (fun m => contentHash m.content == contentHash s1.content) := by
    have hc : S.countP (fun m => contentHash m.content == contentHash s1.content)
        = (S.take j2).countP (fun m => contentHash m.content == contentHash s1.content)
          + (S.drop j2).countP (fun m => contentHash m.content == contentHash s1.content) := by
      conv_lhs => rw [← hsplit]
      rw [List.countP_append]
    have hmem1 : s1 ∈ S.take j2 := by
      apply List.mem_iff_getElem?.2 ⟨j1, ?_⟩
      rw [List.getElem?_take]
      simp [hj, h1]
    have hmem2 : s2 ∈ S.drop j2 := by
      apply List.mem_iff_getElem?.2 ⟨0, ?_⟩
      rw [List.getElem?_drop]
      simpa using h2
    have hpos1 : 0 < (S.take j2).countP
        (fun m => contentHash m.content == contentHash s1.content) := by
      rw [List.countP_pos_iff]
      exact ⟨s1, hmem1, by simp⟩
    have hpos2 : 0 < (S.drop j2).countP
        (fun m => contentHash m.content == contentHash s1.content) := by
      rw [List.countP_pos_iff]
      exact ⟨s2, hmem2, by simp [hh]⟩
    omega
  exact hS2

/-- **C10, witness.** Two same-fingerprint incoming messages whose
fingerprint is absent from the canonical list are both appended. -/
theorem c10_witness :
    (mergeMessages [⟨Role.user, "hello there my good friend"⟩]
        [⟨Role.user, "dup content a"⟩, ⟨Role.assistant, "dup content a "⟩]).countP
        (fun m => contentHash m.content
          == contentHash (Message.content ⟨Role.user, "dup content a"⟩))
      = ([⟨Role.user, "dup content a"⟩,
          ⟨Role.assistant, "dup content a "⟩] : List Message).countP
        (fun m => contentHash m.content
          == contentHash (Message.content ⟨Role.user, "dup content a"⟩)) ∧
    2 ≤ (mergeMessages [⟨Role.user, "hello there my good friend"⟩]
        [⟨Role.user, "dup content a"⟩, ⟨Role.assistant, "dup content a "⟩]).countP
        (fun m => contentHash m.content
          == contentHash (Message.content ⟨Role.user, "dup content a"⟩)) :=
  @mergeMessages_duplicate_append
    [⟨Role.user, "hello there my good friend"⟩]
    [⟨Role.user, "dup content a"⟩, ⟨Role.assistant, "dup content a "⟩]
    0 1 ⟨Role.user, "dup content a"⟩ ⟨Role.assistant, "dup content a "⟩
    (by decide) (by decide) (by decide) (by decide) (by decide)

/-- **C8.** Fingerprint algorithm equivalence: `contentHash s` is exactly
the hexadecimal rendering of the spec's rolling hash
(`hash = hash*31 + charCode` with 32-bit signed wrap-around, starting from
0) over `s.substring(0,100).toLowerCase().trim()`; and the code's
shift-based update `((hash << 5) - hash) + char` followed by `hash & hash`
coincides with the spec's update on every state and character. -/
theorem contentHash_eq_spec (s : String) :
    contentHash s
      = toHexString (specHashVal (jsTrim (jsToLowerCase (substringFirst 100 s)))) ∧
    jsHashStep = specHashStep := by
  constructor
  · rw [contentHash, simpleHash, simpleHashVal_eq_specHashVal]
  · exact jsHashStep_eq_specHashStep

/-! ## Snapshot parsing and gatekeeping (`parseConversationFromCapture`) -/

/-- An upper-case Latin letter, the `[A-Z]` class of `cleanText`'s regex. -/
def isUpperAZ (c : Char) : Bool :=
  'A' ≤ c && c ≤ 'Z'

/-- Consume one-or-more characters satisfying `p` (a `+`-quantified class);
`none` when the run is empty. -/
def matchRunThen (p : Char → Bool) (l : List Char) : Option (List Char) :=
  if (l.takeWhile p).isEmpty then none else some (l.dropWhile p)

/-- Match the regex `/\n+[A-Z]+\d+(:[A-Z]+\d+)? selected$/` of `cleanText`
against the *reversed* character list of the text; returns the reversed
remainder when the suffix matches.  Each `+`-run is forced (no backtracking
is possible: every component is followed by a character its class
excludes), so the reversed deterministic scan is equivalent. -/
def stripSelRev (rev : List Char) : Option (List Char) :=
  let sel := " selected".data.reverse
  if sel.isPrefixOf rev then
    match matchRunThen Char.isDigit (rev.drop sel.length) with
    | none => none
    | some r2 =>
      match matchRunThen isUpperAZ r2 with
      | none => none
      | some r3 =>
        match r3 with
        | ':' :: r4 =>
          match matchRunThen Char.isDigit r4 with
          | none => none
          | some r5 =>
            match matchRunThen isUpperAZ r5 with
            | none => none
            | some r6 => matchRunThen (fun c => c == '\n') r6
        | _ => matchRunThen (fun c => c == '\n') r3
  else none

/-- `cleanText` from `uiCapture.ts`: strip a trailing
`"\n+CELL(:CELL)? selected"` notification, then trim. -/
def cleanText (text : String) : String :=
  match stripSelRev text.data.reverse with
  | some restRev => jsTrim (String.mk restRev.reverse)
  | none => jsTrim text

/-- The `CapturedMessage` shape produced by the UI-automation capture
script (role pre-classified as `'user' | 'assistant'`). -/
structure CapturedMessage where
  role : Role
  content : String
  deriving DecidableEq, Repr

/-- The `ParsedConversation` interface of `uiCapture.ts`. -/
structure ParsedConversation where
  messages : List Message
  hash : String
  deriving DecidableEq, Repr

instance : BEq Role := ⟨fun a b => decide (a = b)⟩

/-- The cleaned message list of `parseConversationFromCapture`:
`capturedMessages.map(m => ({role: m.role, content: cleanText(m.content)}))
.filter(m => m.content.length > 0)`. -/
def cleanedMessages (capturedMessages : List CapturedMessage) : List Message :=
  (capturedMessages.map
    (fun m => { role := m.role, content := cleanText m.content : Message })).filter
    (fun m => m.content.length > 0)

/-- `parseConversationFromCapture` from `uiCapture.ts`. -/
def parseConversationFromCapture (capturedMessages : List CapturedMessage) :
    Option ParsedConversation :=
  if capturedMessages.length < 2 then none
  else
    let fullContent := String.intercalate "|||" (capturedMessages.map (·.content))
    let hash := simpleHash fullContent
    let messages := cleanedMessages capturedMessages
    let hasUser := messages.any (fun m => m.role == Role.user)
    let hasAssistant := messages.any (fun m => m.role == Role.assistant)
    if !hasUser || !hasAssistant then none
    else some { messages := messages, hash := hash }

/-- The transcript-updating logic of `captureOnce` (existing-session path):
a capture that fails to parse, parses to fewer than two messages, or
repeats the last accepted whole-snapshot digest leaves the canonical
transcript and the stored digest unchanged; otherwise the canonical
transcript is `mergeMessages` of the existing one with the parsed one. -/
def captureUpdate (existing : List Message) (captured : List CapturedMessage)
    (lastHash : String) : List Message × String :=
  match parseConversationFromCapture captured with
  | none => (existing, lastHash)
  | some conv =>
    if conv.messages.length < 2 then (existing, lastHash)
    else if conv.hash == lastHash then (existing, lastHash)
    else (mergeMessages existing conv.messages, conv.hash)

/-- **C4.** Gatekeeping: a capture with fewer than 2 raw messages, or whose
cleaned message list lacks a `user` message or lacks an `assistant`
message, makes `parseConversationFromCapture` return `null`, and therefore
leaves the canonical transcript (and the stored snapshot digest)
unchanged. -/
theorem parse_gatekeeping (captured : List CapturedMessage)
    (existing : List Message) (lastHash : String)
    (h : captured.length < 2 ∨
      (cleanedMessages captured).any (fun m => m.role == Role.user) = false ∨
      (cleanedMessages captured).any (fun m => m.role == Role.assistant) = false) :
    parseConversationFromCapture captured = none ∧
    captureUpdate existing captured lastHash = (existing, lastHash) := by
  have hparse : parseConversationFromCapture captured = none := by
    unfold parseConversationFromCapture
    rcases h with h | h | h
    · rw [if_pos h]
    · by_cases h2 : captured.length < 2
      · rw [if_pos h2]
      · rw [if_neg h2]
        simp [h]
    · by_cases h2 : captured.length < 2
      · rw [if_pos h2]
      · rw [if_neg h2]
        simp [h]
  refine ⟨hparse, ?_⟩
  unfold captureUpdate
  rw [hparse]

/-- **C4, witness.** A concrete two-message capture with no assistant
message is rejected and leaves the transcript untouched. -/
theorem c4_witness :
    (([⟨Role.user, "hello there friend"⟩,
       ⟨Role.user, "more text here ok"⟩] : List CapturedMessage).length < 2 ∨
      (cleanedMessages [⟨Role.user, "hello there friend"⟩,
        ⟨Role.user, "more text here ok"⟩]).any
        (fun m => m.role == Role.user) = false ∨
      (cleanedMessages [⟨Role.user, "hello there friend"⟩,
        ⟨Role.user, "more text here ok"⟩]).any
        (fun m => m.role == Role.assistant) = false) ∧
    (parseConversationFromCapture [⟨Role.user, "hello there friend"⟩,
        ⟨Role.user, "more text here ok"⟩] = none ∧
      captureUpdate [⟨Role.user, "old stuff"⟩]
        [⟨Role.user, "hello there friend"⟩, ⟨Role.user, "more text here ok"⟩]
        "xyz" = ([⟨Role.user, "old stuff"⟩], "xyz")) :=
  ⟨by decide,
    parse_gatekeeping
      [⟨Role.user, "hello there friend"⟩, ⟨Role.user, "more text here ok"⟩]
      [⟨Role.user, "old stuff"⟩] "xyz" (by decide)⟩

/-! ## `textRank.ts`: sentence splitting -/

theorem length_dropWhile_le {α : Type} (p : α → Bool) (l : List α) :
    (l.dropWhile p).length ≤ l.length := by
  induction l with
  | nil => simp
  | cons x xs ih =>
    rw [List.dropWhile_cons]
    by_cases h : p x = true
    · simp only [h, if_true, List.length_cons]
      omega
    · simp only [h, if_false]
      simp

/-- Locate the leftmost occurrence of a triple backtick; return the part
before it and the part after it. -/
def findTriple : List Char → Option (List Char × List Char)
  | [] => none
  | c :: cs =>
    if (c :: cs).take 3 = ['`', '`', '`'] then some ([], (c :: cs).drop 3)
    else (findTriple cs).map (fun pr => (c :: pr.1, pr.2))

theorem findTriple_length {cs pre rest : List Char}
    (h : findTriple cs = some (pre, rest)) :
    cs.length = pre.length + 3 + rest.length := by
  induction cs generalizing pre with
  | nil => simp [findTriple] at h
  | cons c cs ih =>
    simp only [findTriple] at h
    split at h
    · next hp =>
      have h3 : ((c :: cs).take 3).length = 3 := by rw [hp]; rfl
      rw [List.length_take] at h3
      have hge : 3 ≤ (c :: cs).length := by omega
      simp only [Option.some_inj, Prod.mk.injEq] at h
      obtain ⟨h1, h2⟩ := h
      subst h1
      subst h2
      rw [List.length_drop]
      simp only [List.length_nil]
      omega
    · next hp =>
      rw [Option.map_eq_some'] at h
      obtain ⟨⟨p', r'⟩, hfr, heq⟩ := h
      simp only [Prod.mk.injEq] at heq
      obtain ⟨h1, h2⟩ := heq
      subst h1
      subst h2
      have := ih hfr
      simp only [List.length_cons]
      omega

/-- The placeholder string `__CODE_BLOCK_${i}__` of `splitSentences`. -/
def codePlaceholder (k : ℕ) : String :=
  "__CODE_BLOCK_" ++ toString k ++ "__"

/-- The global replace of `/```[\s\S]*?```/g` by placeholders: repeatedly
take the leftmost backtick fence and the closest closing fence (lazy
quantifier), push the block, and splice in the placeholder.  `k` is the
index of the next block. -/
def extractCodeBlocksAux (fuel : ℕ) (k : ℕ) (cs : List Char) :
    List Char × List String :=
  match fuel with
  | 0 => (cs, [])
  | fuel + 1 =>
    match findTriple cs with
    | none => (cs, [])
    | some (pre, rest) =>
      match findTriple rest with
      | none => (cs, [])
      | some (mid, rest2) =>
        let res := extractCodeBlocksAux fuel (k + 1) rest2
        (pre ++ (codePlaceholder k).data ++ res.1,
          ("```" ++ String.mk mid ++ "```") :: res.2)

/-- Code-block extraction of `splitSentences`: the text with each fenced
block replaced by its placeholder, and the list of blocks in order.
The fuel `length + 1` always suffices: each step consumes a whole
`` ```…``` `` match, at least six characters (`findTriple_length`). -/
def extractCodeBlocks (text : String) : String × List String :=
  let res := extractCodeBlocksAux (text.data.length + 1) 0 text.data
  (String.mk res.1, res.2)

/-- The `[.!?]` class of the sentence-boundary regex. -/
def isPunct (c : Char) : Bool :=
  c == '.' || c == '!' || c == '?'

/-- `textWithoutCode.split(/(?<=[.!?])\s+|\n\n+/)`: scan left to right; a
whitespace run preceded by `.`, `!` or `?` is a separator (greedy `\s+`),
otherwise a run of two or more newlines is a separator (greedy `\n\n+`).
`prevPunct` is the lookbehind state, `acc` the current piece reversed. -/
def splitBoundariesAux (fuel : ℕ) (prevPunct : Bool) (cs : List Char)
    (acc : List Char) : List (List Char) :=
  match fuel with
  | 0 => [acc.reverse]
  | fuel + 1 =>
    match cs with
    | [] => [acc.reverse]
    | c :: rest =>
      if prevPunct && c.isWhitespace then
        -- `c` is whitespace, so the greedy `\s+` run is `c` plus the
        -- following whitespace of `rest`.
        acc.reverse ::
          splitBoundariesAux fuel false (rest.dropWhile Char.isWhitespace) []
      else if c == '\n' && rest.head? == some '\n' then
        -- `c` is a newline, so the greedy `\n\n+` run is `c` plus the
        -- following newlines of `rest`.
        acc.reverse ::
          splitBoundariesAux fuel false (rest.dropWhile (fun x => x == '\n')) []
      else
        splitBoundariesAux fuel (isPunct c) rest (c :: acc)

/-- JavaScript `hay.includes(needle)`. -/
def jsIncludes (hay needle : String) : Bool :=
  go needle.data hay.data
where
  go (needle : List Char) : List Char → Bool
    | [] => needle.isEmpty
    | c :: cs => needle.isPrefixOf (c :: cs) || go needle cs

/-- JavaScript `hay.replace(needle, repl)` for a plain-string pattern:
replace the first occurrence only. -/
def replaceFirstList (needle repl : List Char) : List Char → List Char
  | [] => []
  | c :: cs =>
    if needle.isPrefixOf (c :: cs) then repl ++ (c :: cs).drop needle.length
    else c :: replaceFirstList needle repl cs

/-- First match of `/__CODE_BLOCK_(\d+)__/`: scan for `__CODE_BLOCK_`
followed by a non-empty (maximal) digit run followed by `__`; returns the
digit run.  (A shorter-than-maximal digit run cannot be followed by `_`,
so the greedy run is the only candidate and no backtracking arises.) -/
def placeholderDigits : List Char → Option (List Char)
  | [] => none
  | c :: cs =>
    if "__CODE_BLOCK_".data.isPrefixOf (c :: cs) then
      let after := (c :: cs).drop 13
      let ds := after.takeWhile Char.isDigit
      if !ds.isEmpty && "__".data.isPrefixOf (after.dropWhile Char.isDigit) then
        some ds
      else placeholderDigits cs
    else placeholderDigits cs

/-- JavaScript `parseInt` on a digit string. -/
def digitsToNat (ds : List Char) : ℕ :=
  ds.foldl (fun n c => n * 10 + (c.toNat - '0'.toNat)) 0

/-- The placeholder-restoration loop of `splitSentences`:
`restored.replace(`__CODE_BLOCK_${i}__`, codeBlocks[i])` for each `i`. -/
def restoreAll (codeBlocks : List String) (sentence : String) : String :=
  codeBlocks.enum.foldl
    (fun restored p =>
      String.mk (replaceFirstList (codePlaceholder p.1).data p.2.data restored.data))
    sentence

/-- Restoration of one split unit: a unit that is exactly a placeholder
becomes the corresponding code block; a unit merely containing placeholders
has each placeholder substituted; others pass through.  (An out-of-range
index — only reachable if the input text itself spells a placeholder —
yields JavaScript `undefined`; the model returns the string
`"undefined"`.) -/
def restoreSentence (codeBlocks : List String) (sentence : String) : String :=
  if jsIncludes sentence "__CODE_BLOCK_" then
    match placeholderDigits sentence.data with
    | some ds =>
      if sentence == "__CODE_BLOCK_" ++ String.mk ds ++ "__" then
        codeBlocks.getD (digitsToNat ds) "undefined"
      else restoreAll codeBlocks sentence
    | none => restoreAll codeBlocks sentence
  else sentence

/-- `splitSentences` from `textRank.ts`. -/
def splitSentences (text : String) : List String :=
  let extracted := extractCodeBlocks text
  let sentences :=
    ((splitBoundariesAux (extracted.1.data.length + 1) false
        extracted.1.data []).map
      (fun cs => jsTrim (String.mk cs))).filter (fun s => s.length > 10)
  sentences.map (restoreSentence extracted.2)

/-! ## `textRank.ts`: tokenization, similarity, ranking, summarization

JavaScript float arithmetic is modelled by exact rationals (the constants
`0.85` and the ratio are exact; the claims proved below do not depend on
score values). -/

/-- Split a character list into its maximal non-whitespace runs (the
non-empty pieces of `split(/\s+/)`; empty pieces are dropped, which is
immaterial because `tokenize` filters by length afterwards). -/
def wordsOfAux (fuel : ℕ) (cs : List Char) : List (List Char) :=
  match fuel with
  | 0 => []
  | fuel + 1 =>
    match cs.dropWhile Char.isWhitespace with
    | [] => []
    | c :: rest =>
      (c :: rest).takeWhile (fun x => !x.isWhitespace) ::
        wordsOfAux fuel (rest.dropWhile (fun x => !x.isWhitespace))

/-- The fuel `length + 1` always suffices: each step consumes at least one
character. -/
def wordsOf (cs : List Char) : List (List Char) :=
  wordsOfAux (cs.length + 1) cs

/-- JavaScript `s.startsWith(pre)`. -/
def jsStartsWith (s pre : String) : Bool :=
  pre.data.isPrefixOf s.data

/-- `tokenize` from `textRank.ts`: code units collapse to a marker token;
other units are lower-cased, non-alphanumerics become spaces, and words of
length at most 2 are dropped. -/
def tokenize (sentence : String) : List String :=
  if jsStartsWith sentence "```" then ["__code_block__"]
  else
    let cleaned := (jsToLowerCase sentence).data.map
      (fun c =>
        if ('a' ≤ c && c ≤ 'z') || ('0' ≤ c && c ≤ '9') || c.isWhitespace then c
        else ' ')
    ((wordsOf cleaned).map String.mk).filter (fun w => w.length > 2)

/-- `calculateSimilarity` from `textRank.ts`: Jaccard similarity of the
deduplicated token lists. -/
def calculateSimilarity (sent1 sent2 : List String) : ℚ :=
  if sent1.length = 0 || sent2.length = 0 then 0
  else
    let set1 := sent1.dedup
    let set2 := sent2.dedup
    let intersection := (set1.filter (fun w => set2.contains w)).length
    let union := set1.length + set2.length - intersection
    if union = 0 then 0 else (intersection : ℚ) / (union : ℚ)

/-- `buildSimilarityMatrix` from `textRank.ts`: zero diagonal; for
`i ≠ j` both `(i,j)` and `(j,i)` receive the similarity computed once for
the sorted index pair. -/
def buildSimilarityMatrix (sentences : List (List String)) : List (List ℚ) :=
  (List.range sentences.length).map (fun i =>
    (List.range sentences.length).map (fun j =>
      if i = j then 0
      else calculateSimilarity (sentences.getD (min i j) [])
        (sentences.getD (max i j) [])))

/-- One PageRank iteration of `rankSentences`. -/
def rankIter (n : ℕ) (damping : ℚ) (normalizedMatrix : List (List ℚ))
    (scores : List ℚ) : List ℚ :=
  (List.range n).map (fun i =>
    (1 - damping) / n + damping *
      ((List.range n).foldl (fun sum j =>
        let v := (normalizedMatrix.getD j []).getD i 0
        if v > 0 then sum + v * scores.getD j 0 else sum) 0))

/-- Iterate a step function a fixed number of times. -/
def iterateN {α : Type} (f : α → α) : ℕ → α → α
  | 0, a => a
  | k + 1, a => iterateN f k (f a)

/-- `rankSentences` from `textRank.ts`, with the default arguments
`iterations = 50` and `damping = 0.85` used by `summarize`. -/
def rankSentences (matrix : List (List ℚ)) : List ℚ :=
  let n := matrix.length
  if n = 0 then []
  else
    let normalizedMatrix := matrix.map (fun row =>
      let sum := row.foldl (· + ·) 0
      if sum = 0 then row else row.map (fun v => v / sum))
    iterateN (rankIter n (85 / 100) normalizedMatrix) 50
      (List.replicate n ((1 : ℚ) / n))

/-- JavaScript `Math.ceil` on an exact rational. -/
def mathCeil (q : ℚ) : ℤ :=
  -(Int.fdiv (-q.num) (q.den : ℤ))

/-- One entry of `scoredIndices` in `summarize`. -/
structure ScoredUnit where
  idx : ℕ
  score : ℚ
  isCode : Bool
  deriving DecidableEq, Repr

/-- Stable insertion into a sorted list: the new element goes before the
first entry it compares `le` to, hence after all earlier-inserted equal
entries. -/
def jsSortInsert {α : Type} (le : α → α → Bool) (a : α) : List α → List α
  | [] => [a]
  | b :: bs => if le a b then a :: b :: bs else b :: jsSortInsert le a bs

/-- JavaScript `Array.prototype.sort` with a consistent comparator is a
stable sort; modelled as stable insertion sort. -/
def jsStableSort {α : Type} (le : α → α → Bool) : List α → List α
  | [] => []
  | x :: xs => jsSortInsert le x (jsStableSort le xs)

/-- `scoredIndices` of `summarize`:
`sentences.map((sent, idx) => ({idx, score: scores[idx], isCode: sent.startsWith('```')}))`. -/
def scoredIndicesOf (sentences : List String) (scores : List ℚ) :
    List ScoredUnit :=
  sentences.enum.map (fun p =>
    { idx := p.1, score := scores.getD p.1 0,
      isCode := jsStartsWith p.2 "```" : ScoredUnit })

/-- `codeIndices` of `summarize`. -/
def codeIndicesOf (scored : List ScoredUnit) : List ℕ :=
  (scored.filter (fun s => s.isCode)).map (fun s => s.idx)

/-- `textIndices` of `summarize`: the non-code units sorted by descending
score (stable, as `Array.prototype.sort` with the comparator
`(a, b) => b.score - a.score`), truncated to `numToKeep`. -/
def textIndicesOf (scored : List ScoredUnit) (numToKeep : ℕ) : List ℕ :=
  ((jsStableSort (fun a b => b.score ≤ a.score)
    (scored.filter (fun s => !s.isCode))).take numToKeep).map (fun s => s.idx)

/-- The retained-unit list of `summarize` for a given score assignment:
`keepIndices` is the set union of code and retained text indices, and the
units are filtered in original order. -/
def keptUnits (sentences : List String) (scores : List ℚ) (numToKeep : ℕ) :
    List String :=
  let scoredIndices := scoredIndicesOf sentences scores
  let keepIndices := codeIndicesOf scoredIndices
    ++ textIndicesOf scoredIndices numToKeep
  (sentences.enum.filter (fun p => keepIndices.contains p.1)).map (fun p => p.2)

/-- The unit-selection core of `summarize` (everything after the
`sentences.length <= 3` early return): the retained units in original
order, with the scores computed by the TextRank pipeline and
`numToKeep = Math.max(2, Math.ceil(sentences.length * ratio))`. -/
def summarizeUnits (sentences : List String) (ratio : ℚ) : List String :=
  let tokenizedSentences := sentences.map tokenize
  let matrix := buildSimilarityMatrix tokenizedSentences
  let scores := rankSentences matrix
  let numToKeep : ℤ := max 2 (mathCeil ((sentences.length : ℚ) * ratio))
  keptUnits sentences scores numToKeep.toNat

/-- `summarize` from `textRank.ts`. -/
def summarize (text : String) (ratio : ℚ) : String :=
  let sentences := splitSentences text
  if sentences.length ≤ 3 then text
  else String.intercalate "\n\n" (summarizeUnits sentences ratio)

/-! ## Facts about the unit selection of `summarize` -/

theorem mathCeil_eq_ceil (q : ℚ) : mathCeil q = ⌈q⌉ := by
  unfold mathCeil
  rw [Int.fdiv_eq_ediv _ (by positivity)]
  have hfl : ⌊-q⌋ = (Rat.num (-q)) / (Rat.den (-q) : ℤ) := Rat.floor_def
  rw [Rat.neg_num, Rat.neg_den] at hfl
  have hneg : ⌊-q⌋ = -⌈q⌉ := Int.floor_neg
  omega

theorem jsSortInsert_perm {α : Type} (le : α → α → Bool) (a : α)
    (l : List α) : (jsSortInsert le a l).Perm (a :: l) := by
  induction l with
  | nil => simp [jsSortInsert]
  | cons b bs ih =>
    rw [jsSortInsert]
    by_cases h : le a b = true
    · simp [h]
    · simp only [h, if_false]
      exact List.Perm.trans (List.Perm.cons b ih) (List.Perm.swap a b bs)

theorem jsStableSort_perm {α : Type} (le : α → α → Bool) (l : List α) :
    (jsStableSort le l).Perm l := by
  induction l with
  | nil => simp [jsStableSort]
  | cons x xs ih =>
    rw [jsStableSort]
    exact List.Perm.trans (jsSortInsert_perm le x _) (List.Perm.cons x ih)

theorem contains_iff_mem {l : List ℕ} {a : ℕ} :
    l.contains a = true ↔ a ∈ l := by
  simp [List.contains_eq_any_beq, List.any_eq_true]

theorem mem_codeIndicesOf {sentences : List String} {scores : List ℚ}
    {i : ℕ} :
    i ∈ codeIndicesOf (scoredIndicesOf sentences scores) ↔
      ∃ s, sentences[i]? = some s ∧ jsStartsWith s "```" = true := by
  unfold codeIndicesOf scoredIndicesOf
  constructor
  · intro h
    rw [List.mem_map] at h
    obtain ⟨u, hu, hui⟩ := h
    rw [List.mem_filter] at hu
    obtain ⟨humem, hucode⟩ := hu
    rw [List.mem_map] at humem
    obtain ⟨p, hpmem, hpu⟩ := humem
    rw [List.mem_enum_iff_getElem?] at hpmem
    subst hpu
    simp only at hucode hui
    subst hui
    exact ⟨p.2, hpmem, hucode⟩
  · rintro ⟨s, hs, hcode⟩
    rw [List.mem_map]
    refine ⟨⟨i, scores.getD i 0, jsStartsWith s "```"⟩, ?_, rfl⟩
    rw [List.mem_filter]
    constructor
    · rw [List.mem_map]
      exact ⟨(i, s), List.mem_enum_iff_getElem?.2 hs, rfl⟩
    · exact hcode

theorem mem_textIndicesOf {sentences : List String} {scores : List ℚ}
    {k : ℕ} {i : ℕ}
    (h : i ∈ textIndicesOf (scoredIndicesOf sentences scores) k) :
    ∃ s, sentences[i]? = some s ∧ jsStartsWith s "```" = false := by
  unfold textIndicesOf scoredIndicesOf at h
  rw [List.mem_map] at h
  obtain ⟨u, hu, hui⟩ := h
  have hu2 : u ∈ jsStableSort (fun a b => b.score ≤ a.score)
      ((sentences.enum.map (fun p =>
        { idx := p.1, score := scores.getD p.1 0,
          isCode := jsStartsWith p.2 "```" : ScoredUnit })).filter
        (fun s => !s.isCode)) :=
    (List.take_sublist _ _).subset hu
  rw [(jsStableSort_perm _ _).mem_iff, List.mem_filter] at hu2
  obtain ⟨humem, hutext⟩ := hu2
  rw [List.mem_map] at humem
  obtain ⟨p, hpmem, hpu⟩ := humem
  rw [List.mem_enum_iff_getElem?] at hpmem
  subst hpu
  simp only [Bool.not_eq_true'] at hutext
  simp only at hui
  subst hui
  exact ⟨p.2, hpmem, hutext⟩

theorem scoredIndicesOf_map_idx (sentences : List String) (scores : List ℚ) :
    (scoredIndicesOf sentences scores).map (fun u => u.idx)
      = List.range sentences.length := by
  unfold scoredIndicesOf
  rw [List.map_map]
  exact List.enum_map_fst sentences

theorem textIndicesOf_nodup (sentences : List String) (scores : List ℚ)
    (k : ℕ) : (textIndicesOf (scoredIndicesOf sentences scores) k).Nodup := by
  unfold textIndicesOf
  have hnd : (((scoredIndicesOf sentences scores).filter
      (fun s => !s.isCode)).map (fun u => u.idx)).Nodup := by
    have hsub : ((scoredIndicesOf sentences scores).filter
        (fun s => !s.isCode)).Sublist (scoredIndicesOf sentences scores) :=
      List.filter_sublist _
    have := hsub.map (fun u => u.idx)
    apply this.nodup
    rw [scoredIndicesOf_map_idx]
    exact List.nodup_range _
  have hperm : ((jsStableSort (fun a b => b.score ≤ a.score)
      ((scoredIndicesOf sentences scores).filter (fun s => !s.isCode))).map
        (fun u => u.idx)).Perm
      (((scoredIndicesOf sentences scores).filter
        (fun s => !s.isCode)).map (fun u => u.idx)) :=
    (jsStableSort_perm _ _).map _
  have hndsort := (List.Perm.nodup_iff hperm).2 hnd
  have hsub2 : ((jsStableSort (fun a b => b.score ≤ a.score)
      ((scoredIndicesOf sentences scores).filter (fun s => !s.isCode))).take
        k).Sublist
      (jsStableSort (fun a b => b.score ≤ a.score)
        ((scoredIndicesOf sentences scores).filter (fun s => !s.isCode))) :=
    List.take_sublist _ _
  exact (hsub2.map (fun u => u.idx)).nodup hndsort

theorem textIndicesOf_length (sentences : List String) (scores : List ℚ)
    (k : ℕ) :
    (textIndicesOf (scoredIndicesOf sentences scores) k).length
      = min k (sentences.countP (fun s => !(jsStartsWith s "```"))) := by
  unfold textIndicesOf
  rw [List.length_map, List.length_take]
  congr 1
  rw [(jsStableSort_perm _ _).length_eq]
  rw [← List.countP_eq_length_filter]
  unfold scoredIndicesOf
  rw [List.countP_map]
  have : ((fun s => !s.isCode) ∘ (fun p : ℕ × String =>
      { idx := p.1, score := scores.getD p.1 0,
        isCode := jsStartsWith p.2 "```" : ScoredUnit }))
      = ((fun s : String => !(jsStartsWith s "```")) ∘ Prod.snd) := rfl
  rw [this, ← List.countP_map, List.enum_map_snd]

theorem countP_contains_range {L : List ℕ} {n : ℕ} (hnd : L.Nodup)
    (hin : ∀ x ∈ L, x < n) :
    (List.range n).countP (fun i => L.contains i) = L.length := by
  rw [List.countP_eq_length_filter]
  have hperm : ((List.range n).filter (fun i => L.contains i)).Perm L := by
    rw [List.perm_ext_iff_of_nodup ((List.nodup_range n).filter _) hnd]
    intro a
    rw [List.mem_filter, List.mem_range]
    constructor
    · rintro ⟨_, hc⟩
      exact contains_iff_mem.1 hc
    · intro ha
      exact ⟨hin a ha, contains_iff_mem.2 ha⟩
  exact hperm.length_eq

theorem keptUnits_countP (sentences : List String) (scores : List ℚ)
    (k : ℕ) :
    (keptUnits sentences scores k).countP (fun s => !(jsStartsWith s "```"))
      = min (sentences.countP (fun s => !(jsStartsWith s "```"))) k := by
  unfold keptUnits
  rw [List.countP_map, List.countP_filter]
  have hcongr : ∀ p ∈ sentences.enum,
      (((fun s => !(jsStartsWith s "```")) ∘ Prod.snd) p &&
        ((codeIndicesOf (scoredIndicesOf sentences scores)
          ++ textIndicesOf (scoredIndicesOf sentences scores) k).contains p.1))
        = true ↔
      ((textIndicesOf (scoredIndicesOf sentences scores) k).contains p.1)
        = true := by
    intro p hp
    rw [List.mem_enum_iff_getElem?] at hp
    simp only [Function.comp_apply, Bool.and_eq_true, Bool.not_eq_true']
    rw [contains_iff_mem, contains_iff_mem, List.mem_append]
    constructor
    · rintro ⟨hnc, hc | ht⟩
      · exfalso
        obtain ⟨s, hs, hcode⟩ := mem_codeIndicesOf.1 hc
        rw [hp] at hs
        cases hs
        rw [hcode] at hnc
        cases hnc
      · exact ht
    · intro ht
      obtain ⟨s, hs, htext⟩ := mem_textIndicesOf ht
      rw [hp] at hs
      cases hs
      exact ⟨htext, Or.inr ht⟩
  rw [List.countP_congr hcongr]
  have : (fun p : ℕ × String =>
      (textIndicesOf (scoredIndicesOf sentences scores) k).contains p.1)
      = ((fun i => (textIndicesOf (scoredIndicesOf sentences scores) k).contains i)
        ∘ Prod.fst) := rfl
  rw [this, ← List.countP_map, List.enum_map_fst]
  rw [countP_contains_range (textIndicesOf_nodup sentences scores k) ?_]
  · rw [textIndicesOf_length]
    exact Nat.min_comm _ _
  · intro x hx
    obtain ⟨s, hs, _⟩ := mem_textIndicesOf hx
    rcases List.getElem?_eq_some_iff.1 hs with ⟨hl, _⟩
    exact hl

theorem keptUnits_code_mem {sentences : List String} {scores : List ℚ}
    {k : ℕ} {u : String} (hu : u ∈ sentences)
    (hcode : jsStartsWith u "```" = true) :
    u ∈ keptUnits sentences scores k := by
  obtain ⟨i, hi⟩ := List.mem_iff_getElem?.1 hu
  unfold keptUnits
  rw [List.mem_map]
  refine ⟨(i, u), ?_, rfl⟩
  rw [List.mem_filter]
  refine ⟨List.mem_enum_iff_getElem?.2 hi, ?_⟩
  rw [contains_iff_mem, List.mem_append]
  exact Or.inl (mem_codeIndicesOf.2 ⟨u, hi, hcode⟩)

theorem keptUnits_all (sentences : List String) (scores : List ℚ) (k : ℕ)
    (hk : sentences.countP (fun s => !(jsStartsWith s "```")) ≤ k) :
    keptUnits sentences scores k = sentences := by
  show (sentences.enum.filter (fun p =>
      (codeIndicesOf (scoredIndicesOf sentences scores)
        ++ textIndicesOf (scoredIndicesOf sentences scores) k).contains p.1)).map
      (fun p => p.2) = sentences
  have hfilter : sentences.enum.filter (fun p =>
      (codeIndicesOf (scoredIndicesOf sentences scores)
        ++ textIndicesOf (scoredIndicesOf sentences scores) k).contains p.1)
      = sentences.enum := by
    rw [List.filter_eq_self]
    intro p hp
    have hp' := List.mem_enum_iff_getElem?.1 hp
    rw [contains_iff_mem, List.mem_append]
    by_cases hcode : jsStartsWith p.2 "```" = true
    · exact Or.inl (mem_codeIndicesOf.2 ⟨p.2, hp', hcode⟩)
    · refine Or.inr ?_
      unfold textIndicesOf
      have hlenf : ((scoredIndicesOf sentences scores).filter
          (fun s => !s.isCode)).length
          = sentences.countP (fun s => !(jsStartsWith s "```")) := by
        rw [← List.countP_eq_length_filter]
        unfold scoredIndicesOf
        rw [List.countP_map]
        have : ((fun s => !s.isCode) ∘ (fun p : ℕ × String =>
            { idx := p.1, score := scores.getD p.1 0,
              isCode := jsStartsWith p.2 "```" : ScoredUnit }))
            = ((fun s : String => !(jsStartsWith s "```")) ∘ Prod.snd) := rfl
        rw [this, ← List.countP_map, List.enum_map_snd]
      have htake : (jsStableSort (fun a b => b.score ≤ a.score)
          ((scoredIndicesOf sentences scores).filter (fun s => !s.isCode))).take k
          = jsStableSort (fun a b => b.score ≤ a.score)
            ((scoredIndicesOf sentences scores).filter (fun s => !s.isCode)) := by
        apply List.take_of_length_le
        rw [(jsStableSort_perm _ _).length_eq, hlenf]
        exact hk
      rw [htake, List.mem_map]
      refine ⟨⟨p.1, scores.getD p.1 0, jsStartsWith p.2 "```"⟩, ?_, rfl⟩
      rw [(jsStableSort_perm _ _).mem_iff, List.mem_filter]
      constructor
      · unfold scoredIndicesOf
        rw [List.mem_map]
        exact ⟨p, hp, by cases p; rfl⟩
      · simp only [Bool.not_eq_true'] at hcode ⊢
        simp [hcode]
  rw [hfilter]
  exact List.enum_map_snd sentences

theorem jsSortInsert_pairwise {α : Type} {le : α → α → Bool}
    (htrans : ∀ a b c, le a b = true → le b c = true → le a c = true)
    (htot : ∀ a b, le a b = true ∨ le b a = true)
    (a : α) {l : List α}
    (hl : l.Pairwise (fun x y => le x y = true)) :
    (jsSortInsert le a l).Pairwise (fun x y => le x y = true) := by
  induction l with
  | nil => simp [jsSortInsert]
  | cons b bs ih =>
    rw [List.pairwise_cons] at hl
    obtain ⟨hb, hbs⟩ := hl
    rw [jsSortInsert]
    by_cases hab : le a b = true
    · rw [if_pos hab, List.pairwise_cons]
      refine ⟨?_, ?_⟩
      · intro c hc
        rcases List.mem_cons.1 hc with rfl | hcbs
        · exact hab
        · exact htrans a b c hab (hb c hcbs)
      · rw [List.pairwise_cons]
        exact ⟨hb, hbs⟩
    · rw [if_neg hab, List.pairwise_cons]
      refine ⟨?_, ih hbs⟩
      intro c hc
      have hc2 := (jsSortInsert_perm le a bs).mem_iff.1 hc
      rcases List.mem_cons.1 hc2 with hca | hcbs
      · rw [hca]
        rcases htot a b with h | h
        · exact absurd h hab
        · exact h
      · exact hb c hcbs

/-- `jsStableSort` orders its output by the comparator whenever the
comparator is total and transitive (as `(a, b) => b.score - a.score`
is). -/
theorem jsStableSort_pairwise {α : Type} {le : α → α → Bool}
    (htrans : ∀ a b c, le a b = true → le b c = true → le a c = true)
    (htot : ∀ a b, le a b = true ∨ le b a = true)
    (l : List α) :
    (jsStableSort le l).Pairwise (fun x y => le x y = true) := by
  induction l with
  | nil => simp [jsStableSort]
  | cons x xs ih =>
    rw [jsStableSort]
    exact jsSortInsert_pairwise htrans htot x ih

theorem scoredIndicesOf_score {sentences : List String} {scores : List ℚ}
    {u : ScoredUnit} (hu : u ∈ scoredIndicesOf sentences scores) :
    u.score = scores.getD u.idx 0 := by
  unfold scoredIndicesOf at hu
  rw [List.mem_map] at hu
  obtain ⟨p, _, rfl⟩ := hu
  rfl

/-- The selected text indices are the top-scored non-code units: the sort
is descending by score and the selection is a prefix of it, so every
selected index scores at least as high as every non-selected non-code
index. -/
theorem textIndicesOf_top_scored {sentences : List String} {scores : List ℚ}
    {k i j : ℕ} {sj : String}
    (hi : i ∈ textIndicesOf (scoredIndicesOf sentences scores) k)
    (hj : sentences[j]? = some sj)
    (hjnc : jsStartsWith sj "```" = false)
    (hjnot : j ∉ textIndicesOf (scoredIndicesOf sentences scores) k) :
    scores.getD j 0 ≤ scores.getD i 0 := by
  have htrans : ∀ a b c : ScoredUnit,
      decide (b.score ≤ a.score) = true → decide (c.score ≤ b.score) = true →
      decide (c.score ≤ a.score) = true := by
    intro a b c h1 h2
    exact decide_eq_true (le_trans (of_decide_eq_true h2) (of_decide_eq_true h1))
  have htot : ∀ a b : ScoredUnit,
      decide (b.score ≤ a.score) = true ∨ decide (a.score ≤ b.score) = true := by
    intro a b
    rcases le_total b.score a.score with h | h
    · exact Or.inl (decide_eq_true h)
    · exact Or.inr (decide_eq_true h)
  have hpw := jsStableSort_pairwise htrans htot
    ((scoredIndicesOf sentences scores).filter (fun s => !s.isCode))
  unfold textIndicesOf at hi hjnot
  obtain ⟨u, hu, hui⟩ := List.mem_map.1 hi
  have humem : u ∈ jsStableSort (fun a b => b.score ≤ a.score)
      ((scoredIndicesOf sentences scores).filter (fun s => !s.isCode)) :=
    (List.take_sublist _ _).subset hu
  have huscored : u ∈ scoredIndicesOf sentences scores :=
    (List.mem_filter.1 ((jsStableSort_perm _ _).mem_iff.1 humem)).1
  have huscore : u.score = scores.getD u.idx 0 := scoredIndicesOf_score huscored
  have hvj : (⟨j, scores.getD j 0, jsStartsWith sj "```"⟩ : ScoredUnit)
      ∈ (scoredIndicesOf sentences scores).filter (fun s => !s.isCode) := by
    rw [List.mem_filter]
    constructor
    · unfold scoredIndicesOf
      rw [List.mem_map]
      exact ⟨(j, sj), List.mem_enum_iff_getElem?.2 hj, rfl⟩
    · simp [hjnc]
  have hvsorted : (⟨j, scores.getD j 0, jsStartsWith sj "```"⟩ : ScoredUnit)
      ∈ jsStableSort (fun a b => b.score ≤ a.score)
        ((scoredIndicesOf sentences scores).filter (fun s => !s.isCode)) :=
    (jsStableSort_perm _ _).mem_iff.2 hvj
  have hsplit := List.take_append_drop k
    (jsStableSort (fun a b => b.score ≤ a.score)
      ((scoredIndicesOf sentences scores).filter (fun s => !s.isCode)))
  have hvapp : (⟨j, scores.getD j 0, jsStartsWith sj "```"⟩ : ScoredUnit)
      ∈ (jsStableSort (fun a b => b.score ≤ a.score)
          ((scoredIndicesOf sentences scores).filter (fun s => !s.isCode))).take k
        ++ (jsStableSort (fun a b => b.score ≤ a.score)
          ((scoredIndicesOf sentences scores).filter (fun s => !s.isCode))).drop k := by
    rw [hsplit]
    exact hvsorted
  rcases List.mem_append.1 hvapp with htake | hdrop
  · exfalso
    apply hjnot
    rw [List.mem_map]
    exact ⟨⟨j, scores.getD j 0, jsStartsWith sj "```"⟩, htake, rfl⟩
  · have hpw2 : ((jsStableSort (fun a b => b.score ≤ a.score)
        ((scoredIndicesOf sentences scores).filter (fun s => !s.isCode))).take k
        ++ (jsStableSort (fun a b => b.score ≤ a.score)
          ((scoredIndicesOf sentences scores).filter (fun s => !s.isCode))).drop
            k).Pairwise
        (fun x y : ScoredUnit => decide (y.score ≤ x.score) = true) := by
      rw [hsplit]
      exact hpw
    have hcross := (List.pairwise_append.1 hpw2).2.2 u hu
      ⟨j, scores.getD j 0, jsStartsWith sj "```"⟩ hdrop
    have hle := of_decide_eq_true hcross
    rw [huscore, hui] at hle
    exact hle

/-- The kept units are exactly the units that are code-flagged or whose
index was selected among the text indices, in original order. -/
theorem keptUnits_eq_filter (sentences : List String) (scores : List ℚ)
    (k : ℕ) :
    keptUnits sentences scores k
      = (sentences.enum.filter (fun p => jsStartsWith p.2 "```"
          || (textIndicesOf (scoredIndicesOf sentences scores) k).contains p.1)).map
        (fun p => p.2) := by
  show (sentences.enum.filter (fun p =>
      (codeIndicesOf (scoredIndicesOf sentences scores)
        ++ textIndicesOf (scoredIndicesOf sentences scores) k).contains p.1)).map
      (fun p => p.2) = _
  congr 1
  apply List.filter_congr
  intro p hp
  have hp2 := List.mem_enum_iff_getElem?.1 hp
  by_cases hcode : jsStartsWith p.2 "```" = true
  · have h1 : (codeIndicesOf (scoredIndicesOf sentences scores)
        ++ textIndicesOf (scoredIndicesOf sentences scores) k).contains p.1
        = true := by
      rw [contains_iff_mem, List.mem_append]
      exact Or.inl (mem_codeIndicesOf.2 ⟨p.2, hp2, hcode⟩)
    rw [h1, hcode]
    rfl
  · have hcf : jsStartsWith p.2 "```" = false := by
      simpa using hcode
    rw [hcf, Bool.false_or]
    by_cases ht : (textIndicesOf (scoredIndicesOf sentences scores) k).contains p.1
        = true
    · rw [ht]
      rw [contains_iff_mem, List.mem_append]
      exact Or.inr (contains_iff_mem.1 ht)
    · have ht2 : (textIndicesOf (scoredIndicesOf sentences scores) k).contains p.1
          = false := by
        simpa using ht
      rw [ht2]
      cases hc2 : (codeIndicesOf (scoredIndicesOf sentences scores)
          ++ textIndicesOf (scoredIndicesOf sentences scores) k).contains p.1 with
      | false => rfl
      | true =>
        exfalso
        rcases List.mem_append.1 (contains_iff_mem.1 hc2) with hcm | htm
        · obtain ⟨s, hs, hscode⟩ := mem_codeIndicesOf.1 hcm
          rw [hp2] at hs
          cases hs
          rw [hscode] at hcf
          cases hcf
        · rw [contains_iff_mem.2 htm] at ht2
          cases ht2

/-- The score vector of `summarize`: TextRank over the tokenized units. -/
def summarizeScores (sentences : List String) : List ℚ :=
  rankSentences (buildSimilarityMatrix (sentences.map tokenize))

/-- `numToKeep` of `summarize`:
`Math.max(2, Math.ceil(sentences.length * ratio))`. -/
def numToKeepOf (sentences : List String) (ratio : ℚ) : ℕ :=
  (max 2 (mathCeil ((sentences.length : ℚ) * ratio))).toNat

/-- The text indices retained by `summarize`: top `numToKeep` non-code
units by descending TextRank score. -/
def retainedTextIndices (sentences : List String) (ratio : ℚ) : List ℕ :=
  textIndicesOf (scoredIndicesOf sentences (summarizeScores sentences))
    (numToKeepOf sentences ratio)

/-- `summarizeUnits` unfolded through the named score and keep-count
definitions. -/
theorem summarizeUnits_eq_keptUnits_scores (sentences : List String)
    (ratio : ℚ) :
    summarizeUnits sentences ratio
      = keptUnits sentences (summarizeScores sentences)
          (numToKeepOf sentences ratio) := rfl

/-- `summarizeUnits` unfolded: the kept units for the TextRank scores and
`numToKeep = Math.max(2, Math.ceil(sentences.length * ratio))`. -/
theorem summarizeUnits_eq_keptUnits (sentences : List String) (ratio : ℚ) :
    summarizeUnits sentences ratio
      = keptUnits sentences
          (rankSentences (buildSimilarityMatrix (sentences.map tokenize)))
          (max 2 (mathCeil ((sentences.length : ℚ) * ratio))).toNat := rfl

/-! ## Claims C5, C6, C7 -/

/-- The five-unit example text: three mutually dissimilar prose sentences
and two fenced code blocks. -/
def exampleText5 : String :=
  "aaa bbb ccc ddd.\n\n```\ncode one\n```\n\neee fff ggg hhh.\n\n```\ncode two\n```\n\niii jjj kkk lll."

/-- A four-unit example text whose last unit embeds one fenced block that
itself spells a placeholder, plus a second fenced block. -/
def exampleText6 : String :=
  "aaa bbb ccc ddd.\n\neee fff ggg hhh.\n\niii jjj kkk lll.\n\nmmm ```__CODE_BLOCK_1__``` nnn ```real``` ooo."

/-- **C7.** Summarizer no-op threshold: a text that segments into at most
three units is returned unchanged by `summarize`, for every ratio. -/
theorem summarize_noop_of_le_three (text : String) (ratio : ℚ)
    (h : (splitSentences text).length ≤ 3) :
    summarize text ratio = text := by
  unfold summarize
  rw [if_pos h]

/-- **C7, witness.** A two-unit text passes through unchanged. -/
theorem c7_witness :
    (splitSentences "hello world. goodbye world.").length ≤ 3 ∧
    summarize "hello world. goodbye world." (3 / 10)
      = "hello world. goodbye world." :=
  ⟨by decide, summarize_noop_of_le_three "hello world. goodbye world."
    (3 / 10) (by decide)⟩

/-- **C5, counterexample.** The ratio bound as claimed — retained non-code
units `= min(N, max(2, ceil(N*r)))` with `N` the number of *non-code*
units — fails: `numToKeep` is computed from the *total* unit count.  On a
text with 5 units (3 non-code, 2 code) and `r = 1/2` the code retains
`max(2, ceil(5/2)) = 3` non-code units, not `max(2, ceil(3/2)) = 2`. -/
theorem c5_counterexample :
    ¬ ((summarizeUnits (splitSentences exampleText5) (1 / 2)).countP
        (fun s => !(jsStartsWith s "```"))
      = min ((splitSentences exampleText5).countP
            (fun s => !(jsStartsWith s "```")))
          (max 2 (mathCeil
            ((((splitSentences exampleText5).countP
              (fun s => !(jsStartsWith s "```"))) : ℚ) * (1 / 2)))).toNat) := by
  have hcount := keptUnits_countP (splitSentences exampleText5)
    (rankSentences (buildSimilarityMatrix
      ((splitSentences exampleText5).map tokenize)))
    (max 2 (mathCeil (((splitSentences exampleText5).length : ℚ) * (1 / 2)))).toNat
  rw [← summarizeUnits_eq_keptUnits] at hcount
  have hlen : (splitSentences exampleText5).length = 5 := by decide
  have hN : (splitSentences exampleText5).countP
      (fun s => !(jsStartsWith s "```")) = 3 := by decide
  rw [hlen] at hcount
  rw [hcount, hN]
  have hc5 : mathCeil (((5 : ℕ) : ℚ) * (1 / 2)) = 3 := by
    rw [mathCeil_eq_ceil, show (((5 : ℕ) : ℚ) * (1 / 2)) = 5 / 2 by norm_num,
      Int.ceil_eq_iff]
    norm_num
  have hc3 : mathCeil (((3 : ℕ) : ℚ) * (1 / 2)) = 2 := by
    rw [mathCeil_eq_ceil, show (((3 : ℕ) : ℚ) * (1 / 2)) = 3 / 2 by norm_num,
      Int.ceil_eq_iff]
    norm_num
  rw [hc5, hc3]
  decide

/-- **C5, amended.** Ratio bound with the total unit count: for a text with
more than 3 units, `summarize` joins the retained units; the number of
retained non-code units equals `min(N, max(2, ceil(total * r)))` where `N`
is the non-code unit count and `total` the total unit count (the code
computes `numToKeep` from `sentences.length`, not from `N`); and the
retained non-code units are chosen as the top-scored ones: the output is
exactly the code units together with the units at the retained text
indices, in original order, and every retained non-code unit scores at
least as high as every dropped non-code unit. -/
theorem summarize_ratio_bound (text : String) (ratio : ℚ)
    (h3 : 3 < (splitSentences text).length) :
    summarize text ratio
      = String.intercalate "\n\n" (summarizeUnits (splitSentences text) ratio) ∧
    (summarizeUnits (splitSentences text) ratio).countP
        (fun s => !(jsStartsWith s "```"))
      = min ((splitSentences text).countP (fun s => !(jsStartsWith s "```")))
          (max 2 (mathCeil
            (((splitSentences text).length : ℚ) * ratio))).toNat ∧
    summarizeUnits (splitSentences text) ratio
      = ((splitSentences text).enum.filter (fun p =>
          jsStartsWith p.2 "```"
            || (retainedTextIndices (splitSentences text) ratio).contains p.1)).map
        (fun p => p.2) ∧
    ∀ i ∈ retainedTextIndices (splitSentences text) ratio,
      ∀ j sj, (splitSentences text)[j]? = some sj →
        jsStartsWith sj "```" = false →
        j ∉ retainedTextIndices (splitSentences text) ratio →
        (summarizeScores (splitSentences text)).getD j 0
          ≤ (summarizeScores (splitSentences text)).getD i 0 := by
  refine ⟨?_, ?_, ?_, ?_⟩
  · unfold summarize
    rw [if_neg (by omega)]
  · rw [summarizeUnits_eq_keptUnits]
    exact keptUnits_countP _ _ _
  · rw [summarizeUnits_eq_keptUnits_scores]
    unfold retainedTextIndices
    exact keptUnits_eq_filter _ _ _
  · intro i hi j sj hj hnc hnot
    unfold retainedTextIndices at hi hnot
    exact textIndicesOf_top_scored hi hj hnc hnot

/-- **C5, witness.** The amended ratio bound applied to the five-unit
example with ratio `1/2`: the hypothesis holds by computation and the
retained-count conclusion is instantiated. -/
theorem c5_witness :
    3 < (splitSentences exampleText5).length ∧
    (summarizeUnits (splitSentences exampleText5) (1 / 2)).countP
        (fun s => !(jsStartsWith s "```"))
      = min ((splitSentences exampleText5).countP
            (fun s => !(jsStartsWith s "```")))
          (max 2 (mathCeil
            (((splitSentences exampleText5).length : ℚ) * (1 / 2)))).toNat :=
  ⟨by decide, (summarize_ratio_bound exampleText5 (1 / 2) (by decide)).2.1⟩

/-- **C6, counterexample.** Code preservation as claimed — *every* fenced
block of the input appears character-for-character in the output — fails:
when a fenced block itself spells a placeholder, the restoration loop
(`replace` substitutes the first occurrence) splices the second block into
the first one, so the first block `"```__CODE_BLOCK_1__```"` (a fenced
block of the input, listed by the extractor) does not occur in the output,
even at ratio 1 where every unit is retained. -/
theorem c6_counterexample :
    "```__CODE_BLOCK_1__```" ∈ (extractCodeBlocks exampleText6).2 ∧
    jsIncludes exampleText6 "```__CODE_BLOCK_1__```" = true ∧
    jsIncludes (summarize exampleText6 1) "```__CODE_BLOCK_1__```" = false := by
  refine ⟨by decide, by decide, ?_⟩
  have h4 : (splitSentences exampleText6).length = 4 := by decide
  have hN : (splitSentences exampleText6).countP
      (fun s => !(jsStartsWith s "```")) = 4 := by decide
  have hsum : summarize exampleText6 1
      = String.intercalate "\n\n" (splitSentences exampleText6) := by
    unfold summarize
    rw [if_neg (by rw [h4]; omega)]
    rw [summarizeUnits_eq_keptUnits]
    congr 1
    apply keptUnits_all
    rw [hN, h4]
    have h41 : (((4 : ℕ) : ℚ) * 1) = 4 := by norm_num
    rw [h41]
    have hc : mathCeil (4 : ℚ) = 4 := by
      rw [mathCeil_eq_ceil, Int.ceil_eq_iff]
      norm_num
    rw [hc]
    decide
  rw [hsum]
  decide

/-- **C6, amended.** Code preservation holds at the unit level: every unit
that the splitter emits as a code unit (beginning with a triple backtick)
is retained verbatim as a unit of the summary, whose output is exactly the
retained units joined by blank lines.  (A fenced block embedded inside a
non-code unit, or a block whose text collides with a placeholder, may be
dropped or altered — see the counterexample.) -/
theorem summarize_code_preservation (text : String) (ratio : ℚ)
    (h3 : 3 < (splitSentences text).length) :
    (∀ u ∈ splitSentences text, jsStartsWith u "```" = true →
      u ∈ summarizeUnits (splitSentences text) ratio) ∧
    summarize text ratio
      = String.intercalate "\n\n" (summarizeUnits (splitSentences text) ratio) := by
  constructor
  · intro u hu hc
    rw [summarizeUnits_eq_keptUnits]
    exact keptUnits_code_mem hu hc
  · unfold summarize
    rw [if_neg (by omega)]

/-- **C6, witness.** On the five-unit example the first code block is
retained as a unit of the summary. -/
theorem c6_witness :
    3 < (splitSentences exampleText5).length ∧
    "```\ncode one\n```" ∈ summarizeUnits (splitSentences exampleText5) (3 / 10) :=
  ⟨by decide,
    (summarize_code_preservation exampleText5 (3 / 10) (by decide)).1
      "```\ncode one\n```" (by decide) (by decide)⟩
